import Mathlib

/-!
# Verification of the `bbengine` bridge bidding engine

This file gives a shallow embedding, in Lean 4, of the Python source
`src/bbengine/__init__.py` of the `bbengine` repository, and proves (or
refutes) the frozen specification claims about it.

Conventions of the embedding:
* Python strings become Lean `String`s; hands are strings such as
  `"AQ3 AK3 J2 AQ652"`, bids are strings such as `"2N"` or `"P"`.
* Python exceptions become `Except BErr` results; each distinct raise
  site or runtime error class gets its own `BErr` constructor.
* Python `while` loops that are not structurally recursive carry an
  explicit fuel parameter; running out of fuel yields the distinguished
  `BErr.fuel` error, which stands for divergence and is proved
  unreachable where the claims need termination.
* Mutable state (the `Auctioneer`) is passed functionally: every method
  that mutates in Python returns the new state.
-/

namespace BBEngine

/-- Runtime errors of the engine.  Each constructor corresponds to a
Python exception: `over` is `Exception("Auction is already over!")`,
`noCriteria` is `Exception("No criteria found!")`, `noSignoff` is
`Exception("No cheapest NT?")`, `keyError`/`valueError`/`indexError`/
`typeError` are the built-in exception classes raised by dict lookup,
`list.index`, list subscripting and operations on `None` respectively,
and `fuel` is the divergence marker of fueled loops (no Python
counterpart). -/
inductive BErr : Type where
  | over
  | noCriteria
  | noSignoff
  | keyError (tag : String)
  | valueError
  | indexError
  | typeError
  | fuel
  deriving DecidableEq, Repr

/-- `SUITS = ("S", "H", "D", "C")` -/
def SUITS : List String := ["S", "H", "D", "C"]

/-- `RANKS = ("A", "K", "Q", "J", "T", "9", "8", "7", "6", "5", "4", "3", "2", "1")` -/
def RANKS : List Char := ['A', 'K', 'Q', 'J', 'T', '9', '8', '7', '6', '5', '4', '3', '2', '1']

/-- `DIRECTIONS = ("N", "E", "S", "W")` -/
def DIRECTIONS : List String := ["N", "E", "S", "W"]

/-- The strain letters in the order used by `itertools.product`'s second
factor, `("C", "D", "H", "S", "N")`. -/
def BIDSTRAINS : List String := ["C", "D", "H", "S", "N"]

/-- `BIDS = [str(a) + b for (a, b) in itertools.product(range(1, 7), ("C","D","H","S","N"))]`.
Note that `range(1, 7)` yields the levels 1..6 only. -/
def BIDS : List String :=
  ((List.range' 1 6).map (fun a => BIDSTRAINS.map (fun b => toString a ++ b))).flatten

/-- `Evaluator(*args)`: builds a point-count function over a holding
string; rank `RANKS[k]` is worth `args[k]` (0 past the end of `args`).
`holding.count(rank)` counts occurrences of the rank character. -/
def Evaluator (args : List Nat) (holding : String) : Nat :=
  ((RANKS.zip (args ++ List.replicate (RANKS.length - args.length) 0)).map
    (fun rv => holding.toList.count rv.1 * rv.2)).sum

/-- `HCPEvaluator = Evaluator(4, 3, 2, 1)` -/
def HCPEvaluator : String → Nat := Evaluator [4, 3, 2, 1]

/-- `ControlEvaluator = Evaluator(2, 1)` -/
def ControlEvaluator : String → Nat := Evaluator [2, 1]

/-- `Shape(shape_string)`: the shape matcher is a stub in the source —
the returned `helper` ignores its input and returns `True`.  The
`shape_string` is an `Option` because `ShapeCriterion` passes
`xml_element.text`, which may be `None`. -/
def Shape (shape_string : Option String) (holding : Option String) : Bool :=
  true

/-- `next_bid(bid) = BIDS[BIDS.index(bid) + 1]`.  `list.index` raises
`ValueError` when `bid` is not in `BIDS`, and the subscript raises
`IndexError` past the end; both failure modes are merged into `none`. -/
def next_bid (bid : String) : Option String :=
  match BIDS.findIdx? (· == bid) with
  | some i => BIDS[i + 1]?
  | none => none

/-! ## The auction state (`Auctioneer`) -/

/-- The `Auctioneer` record: bid history, dealer, and the index (into
`DIRECTIONS`) of the seat that bids next. -/
structure Auctioneer : Type where
  bids : List String
  dealer : String
  next_to_bid : Nat
  deriving DecidableEq, Repr

/-- `Auctioneer.__init__(dealer)`: empty history, `next_to_bid`
initialised to `DIRECTIONS.index(dealer)`. -/
def initAuctioneer (dealer : String) : Auctioneer :=
  { bids := [], dealer := dealer, next_to_bid := DIRECTIONS.findIdx (· == dealer) }

/-- `Auctioneer.has_opened`: whether anybody has made a non-pass bid. -/
def has_opened (a : Auctioneer) : Bool :=
  if a.bids.isEmpty then false else a.bids.any (· != "P")

/-- `Auctioneer.completed`: all four players initially pass, or three
consecutive passes follow an opening bid (`self.bids[-3:]`). -/
def completed (a : Auctioneer) : Bool :=
  if !(has_opened a) then a.bids.length == 4
  else if a.bids.length < 4 then false
  else (a.bids.drop (a.bids.length - 3)).all (· == "P")

/-- `Auctioneer.add_bid(bid)`: raises `Exception("Auction is already
over!")` when `completed()`, otherwise appends the bid and advances
`next_to_bid` cyclically. -/
def add_bid (a : Auctioneer) (bid : String) : Except BErr Auctioneer :=
  if completed a then .error .over
  else .ok { a with
               bids := a.bids ++ [bid],
               next_to_bid := (a.next_to_bid + 1) % DIRECTIONS.length }

/-- `Auctioneer.all_pass`: `while not self.completed(): self.add_bid("P")`,
with explicit fuel (the loop diverges in Python on unreachable states
such as a never-opened history of length 5). -/
def all_passN : Nat → Auctioneer → Except BErr Auctioneer
  | 0, _ => .error .fuel
  | n + 1, a =>
    if completed a then .ok a
    else
      match add_bid a "P" with
      | .ok a' => all_passN n a'
      | .error e => .error e

/-- `all_pass` with the fuel bound 8, sufficient for every state
reachable through `add_bid` (proved below). -/
def all_pass (a : Auctioneer) : Except BErr Auctioneer := all_passN 8 a

/-- `Auctioneer.highest_bid`: the most recent non-`"P"` bid, scanning
the history backwards; `None` when there is none. -/
def highestL (l : List String) : Option String :=
  l.reverse.find? (· != "P")

/-- `Auctioneer.highest_bid` on the state. -/
def highest_bid (a : Auctioneer) : Option String := highestL a.bids

/-! ## Reachability along `add_bid` and the trailing-pass bookkeeping -/

/-- `Steps a a'`: the state `a'` is obtained from `a` by a (possibly
empty) chain of successful `add_bid` calls — the only way any engine
code ever changes the auction. -/
inductive Steps : Auctioneer → Auctioneer → Prop where
  | refl (a : Auctioneer) : Steps a a
  | add {a b c : Auctioneer} (bid : String) :
      Steps a b → add_bid b bid = .ok c → Steps a c

/-- The number of trailing passes of a bid history. -/
def tp (l : List String) : Nat := (l.reverse.takeWhile (· == "P")).length

/-- The `all_pass` progress measure: number of pass bids still needed. -/
def muA (a : Auctioneer) : Nat :=
  (4 - a.bids.length) + (if has_opened a then 3 - tp a.bids else 0)

/-- The auction-state invariant maintained by `add_bid`: the auction has
opened, or still has at most 4 bids.  (Python's `all_pass` diverges on
states outside it, which is why it appears as hypothesis below.) -/
def Inv2 (a : Auctioneer) : Prop :=
  has_opened a = true ∨ a.bids.length ≤ 4

/-- A finished auction in good form: exactly three trailing passes after
an opening, or the passed-out four-pass auction. -/
def goodFinal (l : List String) : Prop :=
  ((l.any (· != "P")) = true ∧ tp l = 3) ∨ l = ["P", "P", "P", "P"]

/-- Good final form transports along `add_bid` chains: any completed
state reached through successful `add_bid`s from a state that was not
yet completed (or was itself good) is good. -/
def GoodInv (a : Auctioneer) : Prop := completed a = true → goodFinal a.bids

/-- Position of a bid in the bid order, shifted by one so that 0 is
reserved for "no bid"; unknown strings sort above everything. -/
def bidIdx (b : String) : Nat :=
  match BIDS.findIdx? (· == b) with
  | some i => i + 1
  | none => 31

/-- The loop measure source: index of the current highest bid. -/
def hIdx (a : Auctioneer) : Nat :=
  match highest_bid a with
  | none => 0
  | some b => bidIdx b

/-! ## Claim C4: characterisation of `completed` -/

/-- The spec's wording of completion: either no real bid was made and
the history holds exactly 4 bids, or a real bid was made, the history
holds at least 4 bids, and the last three bids are all `Pass`. -/
def specCompleted (a : Auctioneer) : Prop :=
  (has_opened a = false ∧ a.bids.length = 4) ∨
  (has_opened a = true ∧ 4 ≤ a.bids.length ∧
    ∀ b ∈ a.bids.drop (a.bids.length - 3), b = "P")

/-! ## The criteria engine -/

/-- An XML criterion element: its tag (the registry key), its text, its
`min`/`max` attributes (only read by `HCPCriterion`), and its child
elements (only read by `OrCriterion`). -/
inductive Crit : Type where
  | mk (tag : String) (text : Option String) (amin amax : Option String)
       (children : List Crit)

/-- The value of a decimal digit character. -/
def pyDigit (c : Char) : Option Nat :=
  if c == '0' then some 0
  else if c == '1' then some 1
  else if c == '2' then some 2
  else if c == '3' then some 3
  else if c == '4' then some 4
  else if c == '5' then some 5
  else if c == '6' then some 6
  else if c == '7' then some 7
  else if c == '8' then some 8
  else if c == '9' then some 9
  else none

/-- Parses a nonempty run of decimal digits (`none` on the empty list or
on any non-digit). -/
def pyDigits : List Char → Option Nat → Option Nat
  | [], acc => acc
  | c :: cs, acc =>
    match pyDigit c with
    | none => none
    | some d => pyDigits cs (some (acc.getD 0 * 10 + d))

/-- Python `int(s)` on a decimal string, `none` on `ValueError`. -/
def pyInt (s : String) : Option Int :=
  match s.toList with
  | '-' :: rest => (pyDigits rest none).map (fun n => -(n : Int))
  | l => (pyDigits l none).map (fun n => (n : Int))

/-- `int(attrib.get(key, dflt))`: a missing attribute falls back to the
integer default, a present one is parsed (raising `ValueError`, i.e.
`none`, on a malformed string). -/
def attrInt (a : Option String) (dflt : Int) : Option Int :=
  match a with
  | none => some dflt
  | some s => pyInt s

mutual

/-- `CriteriaChecker._check_one`: looks the element's tag up in the
registry (`opening`, `shape`, `balanced`, `hcp`, `or`; an unknown tag
raises `KeyError`) and runs the criterion against `(hand, state)`. -/
def check_one (c : Crit) (hand : Option String) (state : Auctioneer) :
    Except BErr Bool :=
  match c with
  | .mk tag text amin amax children =>
    if tag == "opening" then .ok (!(has_opened state))
    else if tag == "shape" then .ok (Shape text hand)
    else if tag == "balanced" then
      .ok (Shape (some "4,3,3,3") hand || Shape (some "4,4,3,2") hand ||
           Shape (some "5,3,3,2") hand)
    else if tag == "hcp" then
      match hand with
      | none => .error .typeError
      | some h =>
        let hcp : Int := HCPEvaluator h
        match attrInt amin 0 with
        | none => .error .valueError
        | some lo =>
          if hcp < lo then .ok false
          else
            match attrInt amax 40 with
            | none => .error .valueError
            | some hi => if hcp > hi then .ok false else .ok true
    else if tag == "or" then checkAny children hand state
    else .error (.keyError tag)

/-- `CriteriaChecker.check` with the default combinator `all`: `all`
over a lazy `map` short-circuits at the first `False`, so later
criteria are not evaluated (and their errors not raised). -/
def checkAll (cs : List Crit) (hand : Option String) (state : Auctioneer) :
    Except BErr Bool :=
  match cs with
  | [] => .ok true
  | c :: rest =>
    match check_one c hand state with
    | .error e => .error e
    | .ok b => if b then checkAll rest hand state else .ok false

/-- `CriteriaChecker.check` with combinator `any` (used by
`OrCriterion`): short-circuits at the first `True`. -/
def checkAny (cs : List Crit) (hand : Option String) (state : Auctioneer) :
    Except BErr Bool :=
  match cs with
  | [] => .ok false
  | c :: rest =>
    match check_one c hand state with
    | .error e => .error e
    | .ok b => if b then .ok true else checkAny rest hand state

end

/-! ## Claim C8: the Balanced criterion -/

/-- Helper for `splitStr`: accumulates the current word (reversed) while
scanning the character list. -/
def splitGo : List Char → List Char → List String
  | [], acc => if acc.isEmpty then [] else [String.mk acc.reverse]
  | c :: cs, acc =>
    if c == ' ' then
      if acc.isEmpty then splitGo cs []
      else String.mk acc.reverse :: splitGo cs []
    else splitGo cs (c :: acc)

/-- `str.split()` on a hand string: whitespace-separated suit holdings,
empty fields discarded. -/
def splitStr (h : String) : List String := splitGo h.toList []

/-- Modelled from the spec's words for C8 only: the hand's shape is
4333, 4432 or 5332 in some suit assignment, i.e. the multiset of the
four suit lengths is {4,3,3,3}, {4,4,3,2} or {5,3,3,2}. -/
def specBalanced (hand : String) : Bool :=
  let ls := (splitStr hand).map String.length
  (ls.length == 4 && ls.count 4 == 1 && ls.count 3 == 3) ||
  (ls.length == 4 && ls.count 4 == 2 && ls.count 3 == 1 && ls.count 2 == 1) ||
  (ls.length == 4 && ls.count 5 == 1 && ls.count 3 == 2 && ls.count 2 == 1)

/-! ## Python indexing helpers -/

/-- `s.endswith(c)` for a single character `c` (the only form the source
uses): the last character equals `c`. -/
def endsWith1 (s : String) (c : Char) : Bool := s.toList.getLast? == some c

/-- Python `l[-2]` on the bid history: defined only when the list has at
least two elements (otherwise `IndexError`). -/
def pyNeg2 (l : List String) : Option String :=
  if 2 ≤ l.length then l[l.length - 2]? else none

/-- Python list subscript with a possibly negative index (negative
indices count from the end). -/
def pyGet {α : Type} (l : List α) (i : Int) : Option α :=
  if i < 0 then
    if (-i).toNat ≤ l.length then l[l.length - (-i).toNat]? else none
  else l[i.toNat]?

/-- Subscripting a per-seat flag table `flags[i]`: `None` entries (the
East/West slots) raise `TypeError` when used, out-of-range raises
`IndexError`. -/
def getFlags (fl : List (Option (List Bool))) (i : Int) :
    Except BErr (List Bool) :=
  match pyGet fl i with
  | some (some l) => .ok l
  | some none => .error .typeError
  | none => .error .indexError

/-- `flags_row[si]` with `IndexError` out of range. -/
def flagAt (l : List Bool) (si : Nat) : Except BErr Bool :=
  match l[si]? with
  | some b => .ok b
  | none => .error .indexError

/-- `flags[i][si] = True`. -/
def setFlag (fl : List (Option (List Bool))) (i : Nat) (si : Nat) :
    Except BErr (List (Option (List Bool))) :=
  match fl[i]? with
  | some (some l) =>
    if si < l.length then .ok (fl.set i (some (l.set si true)))
    else .error .indexError
  | some none => .error .typeError
  | none => .error .indexError

/-- `self.hands[i]` immediately used as a hand: the `None` entries for
East/West raise `TypeError` when evaluated or split. -/
def handAt (hands : List (Option String)) (i : Nat) : Except BErr String :=
  match hands[i]? with
  | some (some h) => .ok h
  | some none => .error .typeError
  | none => .error .indexError

/-- `str.split(current_hand)[i]`. -/
def suitHolding (hand : String) (i : Nat) : Except BErr String :=
  match (splitStr hand)[i]? with
  | some s => .ok s
  | none => .error .indexError

/-- `int(bid[0])`: the level digit of a bid string (`IndexError` on an
empty string, `ValueError` on a non-digit). -/
def bidLevel (bid : String) : Except BErr Nat :=
  match bid.toList with
  | [] => .error .indexError
  | c :: _ =>
    match pyDigit c with
    | some n => .ok n
    | none => .error .valueError

/-- `bid[-1]` as a one-character string. -/
def pyLast (s : String) : Except BErr String :=
  match s.toList.getLast? with
  | some c => .ok (String.mk [c])
  | none => .error .indexError

/-- `SUITS.index(c)`, raising `ValueError` when absent. -/
def suitsIndex (c : String) : Except BErr Nat :=
  match SUITS.findIdx? (· == c) with
  | some i => .ok i
  | none => .error .valueError

/-! ## The CONFI hand-off -/

/-- `bid = current_bid; while not bid.endswith("N"): bid = next_bid(bid)`
— walk `next_bid` up to the cheapest no-trump, with fuel (6 is enough
from any element of `BIDS`; off the bid list `next_bid` fails at once). -/
def toNT : Nat → String → Except BErr String
  | 0, _ => .error .fuel
  | n + 1, bid =>
    if endsWith1 bid 'N' then .ok bid
    else
      match next_bid bid with
      | some b => toNT n b
      | none => .error .valueError

/-- Bool test for the divergence marker. -/
def isFuelErr {α : Type} : Except BErr α → Bool
  | .error .fuel => true
  | _ => false

/-- The loop-carried signalling state of `CONFIHandOff.bid`: the live
auction plus the four per-seat, per-suit flag tables and the
`openers_first_rebid` marker. -/
structure ConfiSt : Type where
  st : Auctioneer
  denied4 : List (Option (List Bool))
  showed4 : List (Option (List Bool))
  showed5 : List (Option (List Bool))
  showed3 : List (Option (List Bool))
  ofr : Bool

/-- The initial flag tables: per-suit `False` rows for North and South,
`None` for East and West. -/
def initFlags : List (Option (List Bool)) :=
  [some [false, false, false, false], none, some [false, false, false, false], none]

/-- CONFI control step (source lines 190–197): the opener reports the
control count by bidding `max(controls - 6, 0) + 1` steps above
`bids[-2]`; returns the advanced state and the opener's raw control
count.  (`Nat` subtraction makes `oc - 6` exactly `max(oc - 6, 0)`.) -/
def confiOpening (hands : List (Option String)) (state : Auctioneer) :
    Except BErr (Auctioneer × Nat) := do
  let current_hand ← handAt hands state.next_to_bid
  let opener_controls := ControlEvaluator current_hand
  let bid_steps := (opener_controls - 6) + 1
  match pyNeg2 state.bids with
  | none => .error .indexError
  | some ask =>
    match BIDS.findIdx? (· == ask) with
    | none => .error .valueError
    | some i =>
      match BIDS[i + bid_steps]? with
      | none => .error .indexError
      | some stepBid => do
        let st ← add_bid state stepBid
        let st ← add_bid st "P"
        .ok (st, opener_controls)

/-- CONFI sufficiency check (source lines 199–212): if the responder's
controls plus `max(opener_controls, 6)` are below 10, sign off at the
first no-trump bid at or after `bids[-2]` in `BIDS` and pass out
(`None` found ⇒ `Exception("No cheapest NT?")`); otherwise fall through
(`none`). -/
def confiSuff (hands : List (Option String)) (st : Auctioneer)
    (opener_controls : Nat) : Except BErr (Option Auctioneer) := do
  let current_hand ← handAt hands st.next_to_bid
  let responder_controls := ControlEvaluator current_hand
  let oc := max opener_controls 6
  if responder_controls + oc < 10 then
    match pyNeg2 st.bids with
    | none => .error .indexError
    | some ask =>
      match BIDS.findIdx? (· == ask) with
      | none => .error .valueError
      | some i =>
        match (BIDS.drop i).find? (fun b => endsWith1 b 'N') with
        | some nt => do
          let st ← add_bid st nt
          let st ← all_pass st
          .ok (some st)
        | none => .error .noSignoff
  else .ok none

/-- Minimum-check correction (source lines 227–249), run on the opener's
first turn back: an opener short of 6 controls signs off at the
cheapest no-trump (or passes out if the current bid already is
no-trump); the responder then passes out unless the 11-control bar is
met.  `.inl` ends the convention, `.inr` falls through to the rest of
the loop body. -/
def confiMinCheck (hands : List (Option String)) (opener : Nat) (c : ConfiSt) :
    Except BErr (Auctioneer ⊕ ConfiSt) :=
  if c.st.next_to_bid == opener && c.ofr then do
    let c1 : ConfiSt := { c with ofr := false }
    let current_hand ← handAt hands c1.st.next_to_bid
    let opener_controls := ControlEvaluator current_hand
    if opener_controls < 6 then
      match highest_bid c1.st with
      | none => .error .typeError
      | some current_bid =>
        if endsWith1 current_bid 'N' then do
          let st ← all_pass c1.st
          .ok (.inl st)
        else do
          let nt ← toNT 6 current_bid
          let st ← add_bid c1.st nt
          let st ← add_bid st "P"
          let current_hand2 ← handAt hands st.next_to_bid
          let responder_controls := ControlEvaluator current_hand2
          let oc := max opener_controls 6
          if responder_controls + oc < 11 then do
            let st2 ← all_pass st
            .ok (.inl st2)
          else .ok (.inr { c1 with st := st })
    else .ok (.inr c1)
  else .ok (.inr c)

/-- `for i, suit in enumerate(SUITS): if len(split(hand)[i]) >= 6 ...`
(source lines 253–259): first suit with six or more cards. -/
def longSuitGo (hand : String) : List (Nat × String) → Except BErr (Option String)
  | [] => .ok none
  | (i, suit) :: rest => do
    let holding ← suitHolding hand i
    if 6 ≤ holding.length then .ok (some suit)
    else longSuitGo hand rest

/-- The fit scans (source lines 262–299): first suit the partner flagged
for which this hand holds at least `minLen` cards. -/
def fitScanGo (hand : String) (minLen : Nat) :
    List (Nat × Bool) → Except BErr (Option Nat)
  | [] => .ok none
  | (i, b) :: rest =>
    if !b then fitScanGo hand minLen rest
    else do
      let holding ← suitHolding hand i
      if holding.length < minLen then fitScanGo hand minLen rest
      else .ok (some i)

/-- "For now, blanket raise to 6 level and end": bid `"6" + suit` and
pass the auction out. -/
def bid6S (st : Auctioneer) (suit : String) : Except BErr Auctioneer := do
  let st ← add_bid st ("6" ++ suit)
  all_pass st

/-- As `bid6S` but through `SUITS[i]` (the fit-scan call sites). -/
def bid6I (st : Auctioneer) (i : Nat) : Except BErr Auctioneer :=
  match SUITS[i]? with
  | none => .error .indexError
  | some suit => bid6S st suit

/-- The four-card suit introduction loop (source lines 304–337):
`for i in range(0, 4)` advancing `bid` by `next_bid` (skipping
no-trump), breaking below the 6 level, marking short suits as denied,
skipping suits partner denied or already shown, and otherwise showing
the suit and bidding it. -/
def intro4Go (hand : String) (c : ConfiSt) (bid : String) :
    Nat → Except BErr ConfiSt
  | 0 => .ok c
  | n + 1 =>
    match next_bid bid with
    | none => .error .valueError
    | some b1 =>
      match (if endsWith1 b1 'N' then next_bid b1 else some b1) with
      | none => .error .valueError
      | some b2 => do
        let lvl ← bidLevel b2
        if 6 ≤ lvl then .ok c
        else do
          let lc ← pyLast b2
          let suit_index ← suitsIndex lc
          let holding ← suitHolding hand suit_index
          if holding.length < 4 then do
            let d4 ← setFlag c.denied4 c.st.next_to_bid suit_index
            intro4Go hand { c with denied4 := d4 } b2 n
          else do
            let pdenied ← getFlags c.denied4 (2 - (c.st.next_to_bid : Int))
            let pd ← flagAt pdenied suit_index
            if pd then intro4Go hand c b2 n
            else do
              let own ← getFlags c.showed4 (c.st.next_to_bid : Int)
              let ow ← flagAt own suit_index
              if ow then intro4Go hand c b2 n
              else do
                let s4 ← setFlag c.showed4 c.st.next_to_bid suit_index
                let st ← add_bid c.st b2
                let st ← add_bid st "P"
                .ok { c with showed4 := s4, st := st }

/-- The five-card suit introduction loop (source lines 344–368). -/
def intro5Go (hand : String) (c : ConfiSt) (bid : String) :
    Nat → Except BErr ConfiSt
  | 0 => .ok c
  | n + 1 =>
    match next_bid bid with
    | none => .error .valueError
    | some b1 =>
      match (if endsWith1 b1 'N' then next_bid b1 else some b1) with
      | none => .error .valueError
      | some b2 => do
        let lvl ← bidLevel b2
        if 6 ≤ lvl then .ok c
        else do
          let lc ← pyLast b2
          let suit_index ← suitsIndex lc
          let holding ← suitHolding hand suit_index
          if holding.length < 5 then intro5Go hand c b2 n
          else do
            let own ← getFlags c.showed5 (c.st.next_to_bid : Int)
            let ow ← flagAt own suit_index
            if ow then intro5Go hand c b2 n
            else do
              let s5 ← setFlag c.showed5 c.st.next_to_bid suit_index
              let st ← add_bid c.st b2
              let st ← add_bid st "P"
              .ok { c with showed5 := s5, st := st }

/-- The three-card suit introduction loop (source lines 378–410): only
at the current level, only in suits the partner showed four of. -/
def intro3Go (hand : String) (curLvl : Nat) (c : ConfiSt) (bid : String) :
    Nat → Except BErr ConfiSt
  | 0 => .ok c
  | n + 1 =>
    match next_bid bid with
    | none => .error .valueError
    | some b1 =>
      match (if endsWith1 b1 'N' then next_bid b1 else some b1) with
      | none => .error .valueError
      | some b2 => do
        let lvl ← bidLevel b2
        if curLvl < lvl then .ok c
        else if 6 ≤ lvl then .ok c
        else do
          let lc ← pyLast b2
          let suit_index ← suitsIndex lc
          let holding ← suitHolding hand suit_index
          if holding.length < 3 then intro3Go hand curLvl c b2 n
          else do
            let own ← getFlags c.showed3 (c.st.next_to_bid : Int)
            let ow ← flagAt own suit_index
            if ow then intro3Go hand curLvl c b2 n
            else do
              let p4 ← getFlags c.showed4 (2 - (c.st.next_to_bid : Int))
              let pb ← flagAt p4 suit_index
              if !pb then intro3Go hand curLvl c b2 n
              else do
                let s3 ← setFlag c.showed3 c.st.next_to_bid suit_index
                let st ← add_bid c.st b2
                let st ← add_bid st "P"
                .ok { c with showed3 := s3, st := st }

/-- One iteration of the CONFI `while True` loop (source lines 225–426):
minimum-check correction, the long-suit short-circuit, the three fit
checks, the three introduction cascades, and the sign-off.  `.inl` is a
`return` (the convention ends), `.inr` is a `continue`. -/
def confiBody (hands : List (Option String)) (opener : Nat) (c : ConfiSt) :
    Except BErr (Auctioneer ⊕ ConfiSt) := do
  match ← confiMinCheck hands opener c with
  | .inl st => .ok (.inl st)
  | .inr c => do
    let current_hand ← handAt hands c.st.next_to_bid
    let ls ← (if c.st.next_to_bid == opener then
                longSuitGo current_hand SUITS.enum
              else .ok none)
    match ls with
    | some suit => do
      let st ← bid6S c.st suit
      .ok (.inl st)
    | none => do
      let p4 ← getFlags c.showed4 (2 - (c.st.next_to_bid : Int))
      match ← fitScanGo current_hand 4 p4.enum with
      | some i => do
        let st ← bid6I c.st i
        .ok (.inl st)
      | none => do
        let p5 ← getFlags c.showed5 (2 - (c.st.next_to_bid : Int))
        match ← fitScanGo current_hand 3 p5.enum with
        | some i => do
          let st ← bid6I c.st i
          .ok (.inl st)
        | none => do
          let p3 ← getFlags c.showed3 (2 - (c.st.next_to_bid : Int))
          match ← fitScanGo current_hand 5 p3.enum with
          | some i => do
            let st ← bid6I c.st i
            .ok (.inl st)
          | none =>
            match highest_bid c.st with
            | none => .error .valueError
            | some current_bid => do
              let c1 ← intro4Go current_hand c current_bid 4
              if some current_bid != highest_bid c1.st then .ok (.inr c1)
              else
                match highest_bid c1.st with
                | none => .error .valueError
                | some g0 => do
                  let c2 ← intro5Go current_hand c1 g0 4
                  if some current_bid != highest_bid c2.st then .ok (.inr c2)
                  else do
                    let curLvl ← bidLevel current_bid
                    match highest_bid c2.st with
                    | none => .error .valueError
                    | some h0 => do
                      let c3 ← intro3Go current_hand curLvl c2 h0 4
                      if some current_bid != highest_bid c3.st then .ok (.inr c3)
                      else
                        if endsWith1 current_bid 'N' then do
                          let st ← all_pass c3.st
                          .ok (.inl st)
                        else do
                          let nt ← toNT 6 current_bid
                          let st ← add_bid c3.st nt
                          let st ← add_bid st "P"
                          .ok (.inr { c3 with st := st })

/-- The CONFI `while True` loop with fuel. -/
def confiLoopN (hands : List (Option String)) (opener : Nat) :
    Nat → ConfiSt → Except BErr Auctioneer
  | 0, _ => .error .fuel
  | n + 1, c =>
    match confiBody hands opener c with
    | .error e => .error e
    | .ok (.inl st) => .ok st
    | .ok (.inr c') => confiLoopN hands opener n c'

/-- `CONFIHandOff.bid()`: control step, sufficiency check, then the
fit-search loop (fuel 40, proved sufficient below). -/
def CONFIbid (hands : List (Option String)) (state : Auctioneer) :
    Except BErr Auctioneer := do
  let opener := state.next_to_bid
  let (st, opener_controls) ← confiOpening hands state
  match ← confiSuff hands st opener_controls with
  | some final => .ok final
  | none =>
    confiLoopN hands opener 40
      { st := st, denied4 := initFlags, showed4 := initFlags,
        showed5 := initFlags, showed3 := initFlags, ofr := true }

/-- `str.lower()`. -/
def pyLower (s : String) : String := String.mk (s.toList.map Char.toLower)

/-- `HandOffs.do(handoff_str, hands, state)`: registry lookup by
lower-cased name; only `confi` is registered, an unknown name raises
`KeyError`. -/
def HandOffs_do (handoff_str : String) (hands : List (Option String))
    (state : Auctioneer) : Except BErr Auctioneer :=
  if pyLower handoff_str == "confi" then CONFIbid hands state
  else .error (.keyError handoff_str)

/-! ## The bid-tree director (`bidder.bid`) -/

/-- A `<bid>` element of the decision tree: its `value` attribute, its
`<criteria>` child (`none` when absent; an empty criteria element is
falsy in Python, like a missing one), its `<responses>` child and its
optional `handoff` attribute. -/
inductive BNode : Type where
  | mk (value : String) (criteria : Option (List Crit))
       (responses : Option (List BNode)) (handoff : Option String)

mutual

/-- Size of a tree node (used as loop fuel for the walk). -/
def sizeBN : BNode → Nat
  | .mk _ _ none _ => 1
  | .mk _ _ (some l) _ => 1 + sizeBNL l

/-- Size of a node list. -/
def sizeBNL : List BNode → Nat
  | [] => 0
  | n :: r => sizeBN n + sizeBNL r + 1

end

/-- The `while True` walk of `bidder.bid` (source lines 496–521),
with fuel (`sizeOf` of the tree is enough, proved below).  The list
argument is the candidate children of the current cursor; an exhausted
or absent (`falsy`) `responses` subtree forces `all_pass`, while a
nonempty child list whose guards all fail just stops — the source
`for/else` breaks without passing out. -/
def walkListN (hands : List (Option String)) :
    Nat → List BNode → Auctioneer → Except BErr Auctioneer
  | _, [], st => .ok st
  | 0, _ :: _, _ => .error .fuel
  | n + 1, .mk value criteria responses handoff :: rest, st =>
    match criteria with
    | none => .error .noCriteria
    | some [] => .error .noCriteria
    | some cs =>
      match hands[st.next_to_bid]? with
      | none => .error .indexError
      | some oh =>
        match checkAll cs oh st with
        | .error e => .error e
        | .ok false => walkListN hands n rest st
        | .ok true => do
          let st ← add_bid st value
          let st ← add_bid st "P"
          let st ← (match handoff with
                    | some hs => HandOffs_do hs hands st
                    | none => .ok st)
          match responses with
          | none => all_pass st
          | some [] => all_pass st
          | some (n2 :: r2) => walkListN hands n (n2 :: r2) st

/-- `bidder.bid(north, south)`: E/W always pass, dealer is North. -/
def bidderBid (tree : List BNode) (north south : String) :
    Except BErr (List String) :=
  let hands : List (Option String) := [some north, none, some south, none]
  let state := initAuctioneer "N"
  match walkListN hands (sizeBNL tree) tree state with
  | .error e => .error e
  | .ok st => .ok st.bids

/-! # Theorems -/

/-! ## Basic lemmas about the auction state -/

theorem add_bid_ok_iff {a a' : Auctioneer} {bid : String} :
    add_bid a bid = .ok a' ↔
      completed a = false ∧
      a' = { a with bids := a.bids ++ [bid],
                    next_to_bid := (a.next_to_bid + 1) % DIRECTIONS.length } := by
  unfold add_bid
  by_cases h : completed a <;> simp [h, eq_comm]

theorem add_bid_bids {a a' : Auctioneer} {bid : String}
    (h : add_bid a bid = .ok a') : a'.bids = a.bids ++ [bid] := by
  rw [add_bid_ok_iff] at h
  rw [h.2]

theorem has_opened_eq_any (a : Auctioneer) :
    has_opened a = a.bids.any (· != "P") := by
  unfold has_opened
  cases a.bids <;> simp

theorem has_opened_append (a : Auctioneer) (l : List String) (b : String) :
    has_opened { a with bids := l ++ [b] } =
      (has_opened { a with bids := l } || (b != "P")) := by
  simp [has_opened_eq_any]

/-- `completed` reads only the bid history. -/
theorem completed_congr {a b : Auctioneer} (h : a.bids = b.bids) :
    completed a = completed b := by
  unfold completed has_opened
  rw [h]

/-- Appending a non-pass makes the auction incomplete: the new last bid
sits inside `bids[-3:]`. -/
theorem completed_append_real (a : Auctioneer) (l : List String) (b : String)
    (hb : b ≠ "P") : completed { a with bids := l ++ [b] } = false := by
  unfold completed
  have hop : has_opened { a with bids := l ++ [b] } = true := by
    rw [has_opened_append]
    simp [hb]
  rw [hop]
  simp only [Bool.not_true, if_false, Bool.false_eq_true]
  split
  · rfl
  · rename_i hlen
    simp only [List.length_append, List.length_cons, List.length_nil, Nat.not_lt] at hlen
    have h3 : (l ++ [b]).length - 3 ≤ l.length := by
      simp only [List.length_append, List.length_cons, List.length_nil]
      omega
    have hmem : b ∈ (l ++ [b]).drop ((l ++ [b]).length - 3) := by
      have : (l ++ [b]).drop ((l ++ [b]).length - 3) =
          l.drop ((l ++ [b]).length - 3) ++ [b] := by
        rw [List.drop_append_of_le_length h3]
      rw [this]
      simp
    rw [Bool.eq_false_iff]
    intro hall
    rw [List.all_eq_true] at hall
    have := hall b hmem
    simp [hb] at this

theorem Steps.single {a a' : Auctioneer} {bid : String}
    (h : add_bid a bid = .ok a') : Steps a a' :=
  .add bid (.refl a) h

theorem Steps.trans {a b c : Auctioneer} (h1 : Steps a b) (h2 : Steps b c) :
    Steps a c := by
  induction h2 with
  | refl => exact h1
  | add bid hs hadd ih => exact .add bid ih hadd

theorem Steps.bids_extend {a a' : Auctioneer} (h : Steps a a') :
    ∃ l, a'.bids = a.bids ++ l := by
  induction h with
  | refl => exact ⟨[], by simp⟩
  | add bid hs hadd ih =>
    obtain ⟨l, hl⟩ := ih
    exact ⟨l ++ [bid], by rw [add_bid_bids hadd, hl, List.append_assoc]⟩

theorem tp_append_P (l : List String) : tp (l ++ ["P"]) = tp l + 1 := by
  simp [tp, List.takeWhile_cons]

theorem takeWhile_length_le (p : String → Bool) :
    ∀ l : List String, (l.takeWhile p).length ≤ l.length
  | [] => by simp
  | x :: t => by
    rw [List.takeWhile_cons]
    split
    · simpa using takeWhile_length_le p t
    · simp

theorem tp_le_length (l : List String) : tp l ≤ l.length := by
  simpa [tp] using takeWhile_length_le (· == "P") l.reverse

/-- `(r.take k).all p` says exactly that the first `k` elements pass
`p`, i.e. that `takeWhile` runs for at least `k` elements. -/
theorem take_all_iff_takeWhile (p : String → Bool) :
    ∀ (k : Nat) (r : List String), k ≤ r.length →
      ((r.take k).all p = true ↔ k ≤ (r.takeWhile p).length)
  | 0, r, _ => by simp
  | k + 1, [], h => by simp at h
  | k + 1, x :: t, h => by
    by_cases hx : p x
    · rw [List.take_succ_cons, List.all_cons, List.takeWhile_cons, if_pos hx]
      simp only [List.length_cons, hx, Bool.true_and]
      have ih := take_all_iff_takeWhile p k t (by simpa using h)
      rw [ih]
      omega
    · rw [List.take_succ_cons, List.all_cons, List.takeWhile_cons, if_neg hx]
      simp [hx]

/-- For a history of length at least 3, "the last three bids are all
Pass" is the same as "at least three trailing passes". -/
theorem last3_iff_tp (l : List String) (h3 : 3 ≤ l.length) :
    ((l.drop (l.length - 3)).all (· == "P") = true) ↔ 3 ≤ tp l := by
  have hrev : (l.drop (l.length - 3)).reverse = l.reverse.take 3 := by
    rw [List.reverse_drop]
    congr 1
    omega
  rw [← List.all_reverse, hrev]
  exact take_all_iff_takeWhile (· == "P") 3 l.reverse (by simpa using h3)

theorem completed_iff_muA (a : Auctioneer) (h2 : Inv2 a) :
    completed a = true ↔ muA a = 0 := by
  unfold completed muA
  by_cases hop : has_opened a
  · rw [hop]
    simp only [Bool.not_true, Bool.false_eq_true, if_false, if_true]
    split
    · rename_i hlen
      simp only [Bool.false_eq_true, false_iff]
      omega
    · rename_i hlen
      rw [Nat.not_lt] at hlen
      rw [last3_iff_tp a.bids (by omega)]
      omega
  · rw [Bool.not_eq_true] at hop
    rw [hop]
    rcases h2 with h2 | h2
    · rw [h2] at hop
      cases hop
    · simp only [Bool.not_false, if_true, Bool.false_eq_true, if_false]
      simp only [beq_iff_eq]
      omega

theorem has_opened_ok_add {a a' : Auctioneer} {bid : String}
    (h : add_bid a bid = .ok a') :
    has_opened a' = (has_opened a || (bid != "P")) := by
  rw [has_opened_eq_any, has_opened_eq_any, add_bid_bids h, List.any_append]
  simp

theorem Inv2_add {a a' : Auctioneer} {bid : String}
    (h : add_bid a bid = .ok a') (h2 : Inv2 a) : Inv2 a' := by
  have hb := add_bid_bids h
  have hcomp := (add_bid_ok_iff.mp h).1
  have hop' := has_opened_ok_add h
  by_cases hbid : bid = "P"
  · rcases h2 with hop | hlen
    · left
      rw [hop', hop]
      simp
    · by_cases hop : has_opened a
      · left
        rw [hop', hop]
        simp
      · right
        rw [hb, List.length_append, List.length_cons, List.length_nil]
        unfold completed at hcomp
        rw [Bool.not_eq_true] at hop
        rw [hop] at hcomp
        simp only [Bool.not_false, if_true] at hcomp
        have : a.bids.length ≠ 4 := by
          intro hcontra
          rw [hcontra] at hcomp
          simp at hcomp
        omega
  · left
    rw [hop']
    simp [hbid]

theorem Inv2_steps {a a' : Auctioneer} (h : Steps a a') (h2 : Inv2 a) :
    Inv2 a' := by
  induction h with
  | refl => exact h2
  | add bid hs hadd ih => exact Inv2_add hadd ih

/-- Key single-step fact: a state produced by a *successful* `add_bid`
that is completed must be in good final form.  (`add_bid` only succeeds
on incomplete states, and completion is first reached with exactly
three trailing passes.) -/
theorem add_bid_completed_good {a a' : Auctioneer} {bid : String}
    (h : add_bid a bid = .ok a') (hc : completed a' = true) :
    goodFinal a'.bids := by
  have hb := add_bid_bids h
  have hcomp := (add_bid_ok_iff.mp h).1
  by_cases hbid : bid = "P"
  · subst hbid
    by_cases hop : has_opened a'
    · left
      refine ⟨by rwa [has_opened_eq_any] at hop, ?_⟩
      unfold completed at hc
      rw [hop] at hc
      simp only [Bool.not_true, Bool.false_eq_true, if_false] at hc
      split at hc
      · cases hc
      · rename_i hlen
        rw [Nat.not_lt] at hlen
        rw [last3_iff_tp _ (by omega)] at hc
        -- tp a'.bids ≥ 3; show it is exactly 3, else a was completed
        have htp' : tp a'.bids = tp a.bids + 1 := by rw [hb]; exact tp_append_P _
        by_contra hne
        have htp4 : 4 ≤ tp a'.bids := by omega
        have htpa : 3 ≤ tp a.bids := by omega
        -- a is opened: its non-"P" element is among a.bids
        have hopa : has_opened a = true := by
          rw [has_opened_eq_any] at hop ⊢
          rw [hb, List.any_append] at hop
          simpa using hop
        have hlena : 4 ≤ a.bids.length := by
          -- otherwise all of a'.bids are trailing passes plus …
          have h1 : a'.bids.length = a.bids.length + 1 := by
            rw [hb]; simp
          by_contra hsmall
          rw [Nat.not_le] at hsmall
          -- then a.bids.length = 3, tp a.bids = 3 ⇒ a.bids all passes,
          -- contradicting has_opened a
          have h3 : a.bids.length = 3 := by
            have := tp_le_length a.bids
            omega
          have : tp a.bids = 3 := by
            have := tp_le_length a.bids
            omega
          have hallp : a.bids.all (· == "P") = true := by
            have h1 := (take_all_iff_takeWhile (· == "P") 3 a.bids.reverse
              (by simp [h3])).mpr (by unfold tp at this; omega)
            rw [List.take_of_length_le (by simp [h3])] at h1
            rwa [List.all_reverse] at h1
          rw [has_opened_eq_any, List.any_eq_true] at hopa
          obtain ⟨x, hx, hxp⟩ := hopa
          rw [List.all_eq_true] at hallp
          have hxP := hallp x hx
          simp only [beq_iff_eq] at hxP
          simp [hxP] at hxp
        -- with len ≥ 4, opened, and tp ≥ 3, a was completed: contradiction
        have : completed a = true := by
          unfold completed
          rw [hopa]
          simp only [Bool.not_true, Bool.false_eq_true, if_false]
          rw [if_neg (by omega)]
          rw [last3_iff_tp _ (by omega)]
          exact htpa
        rw [this] at hcomp
        cases hcomp
    · right
      unfold completed at hc
      rw [Bool.not_eq_true] at hop
      rw [hop] at hc
      simp only [Bool.not_false, if_true, beq_iff_eq] at hc
      rw [has_opened_eq_any] at hop
      have hall : ∀ y ∈ a'.bids, y = "P" := by
        intro y hy
        by_contra hne
        have : a'.bids.any (· != "P") = true :=
          List.any_eq_true.mpr ⟨y, hy, by simpa using hne⟩
        rw [this] at hop
        cases hop
      have := List.eq_replicate_of_mem (l := a'.bids) (a := "P") hall
      rw [this, hc]
      rfl
  · exfalso
    have hfalse := completed_append_real a a.bids bid hbid
    have hcg : completed a' = completed { a with bids := a.bids ++ [bid] } :=
      completed_congr (by rw [hb])
    rw [hcg, hfalse] at hc
    cases hc

theorem GoodInv_steps {a a' : Auctioneer} (h : Steps a a') (hg : GoodInv a) :
    GoodInv a' := by
  induction h with
  | refl => exact hg
  | add bid hs hadd ih => exact fun hc => add_bid_completed_good hadd hc

/-! ## `all_pass`: termination and postconditions -/

theorem all_passN_steps {n : Nat} {a a' : Auctioneer}
    (h : all_passN n a = .ok a') : Steps a a' := by
  induction n generalizing a with
  | zero => cases h
  | succ n ih =>
    unfold all_passN at h
    split at h
    · cases h
      exact .refl _
    · split at h
      · rename_i a1 hadd
        exact (Steps.single hadd).trans (ih h)
      · cases h

theorem all_passN_completed {n : Nat} {a a' : Auctioneer}
    (h : all_passN n a = .ok a') : completed a' = true := by
  induction n generalizing a with
  | zero => cases h
  | succ n ih =>
    unfold all_passN at h
    split at h
    · cases h
      assumption
    · split at h
      · exact ih h
      · cases h

theorem muA_decr {a a' : Auctioneer} (h : add_bid a "P" = .ok a')
    (h2 : Inv2 a) : muA a' < muA a := by
  have hb := add_bid_bids h
  have hcomp := (add_bid_ok_iff.mp h).1
  have hmu : muA a ≠ 0 := by
    intro h0
    rw [← completed_iff_muA a h2] at h0
    rw [h0] at hcomp
    cases hcomp
  have hlen : a'.bids.length = a.bids.length + 1 := by rw [hb]; simp
  have htp : tp a'.bids = tp a.bids + 1 := by rw [hb]; exact tp_append_P _
  have hop : has_opened a' = has_opened a := by
    rw [has_opened_ok_add h]
    simp
  unfold muA at hmu ⊢
  rw [hop, hlen, htp]
  by_cases hoa : has_opened a
  · simp only [hoa, if_true] at hmu ⊢
    omega
  · simp only [hoa, if_false, Bool.false_eq_true] at hmu ⊢
    omega

/-- Fuel 8 always suffices for `all_pass` on states satisfying the
invariant (the measure is at most 7). -/
theorem all_passN_ok : ∀ (n : Nat) (a : Auctioneer), Inv2 a → muA a < n →
    ∃ a', all_passN n a = .ok a'
  | 0, a, _, hmu => absurd hmu (by omega)
  | n + 1, a, h2, hmu => by
    unfold all_passN
    by_cases hc : completed a
    · exact ⟨a, by rw [if_pos hc]⟩
    · rw [if_neg hc]
      have hadd : ∃ a1, add_bid a "P" = .ok a1 := by
        unfold add_bid
        rw [if_neg hc]
        exact ⟨_, rfl⟩
      obtain ⟨a1, ha1⟩ := hadd
      have h2' := Inv2_add ha1 h2
      have hdec := muA_decr ha1 h2
      obtain ⟨a', ha'⟩ := all_passN_ok n a1 h2' (by omega)
      exact ⟨a', by simp only [ha1]; exact ha'⟩

theorem muA_le7 (a : Auctioneer) : muA a ≤ 7 := by
  unfold muA
  split <;> omega

theorem all_pass_ok (a : Auctioneer) (h2 : Inv2 a) :
    ∃ a', all_pass a = .ok a' := by
  exact all_passN_ok 8 a h2 (by have := muA_le7 a; omega)

theorem Inv2_of_opened {a : Auctioneer} (h : has_opened a = true) : Inv2 a :=
  Or.inl h

/-! ## The bid-order index and `next_bid` -/

theorem nodup_BIDS : BIDS.Nodup := by decide

theorem P_notin_BIDS : "P" ∉ BIDS := by decide

theorem length_BIDS : BIDS.length = 30 := by decide

theorem bidIdx_le_31 (b : String) : bidIdx b ≤ 31 := by
  unfold bidIdx
  split
  · rename_i i hf
    obtain ⟨hi, -, -⟩ := List.findIdx?_eq_some_iff_getElem.mp hf
    rw [length_BIDS] at hi
    omega
  · omega

theorem mem_BIDS_ne_P {b : String} (h : b ∈ BIDS) : b ≠ "P" := by
  intro he
  rw [he] at h
  exact P_notin_BIDS h

/-- `next_bid` moves exactly one position up the bid order. -/
theorem next_bid_spec {b b' : String} (h : next_bid b = some b') :
    bidIdx b' = bidIdx b + 1 ∧ b' ∈ BIDS ∧ bidIdx b ≤ 30 := by
  unfold next_bid at h
  match hf : BIDS.findIdx? (· == b) with
  | none => rw [hf] at h; cases h
  | some i =>
    rw [hf] at h
    obtain ⟨hi, hpb, hmin⟩ := List.findIdx?_eq_some_iff_getElem.mp hf
    obtain ⟨hi1, hb'⟩ := List.getElem?_eq_some_iff.mp h
    have hmem : b' ∈ BIDS := by
      rw [← hb']
      exact List.getElem_mem _
    have hfi' : BIDS.findIdx? (· == b') = some (i + 1) := by
      rw [List.findIdx?_eq_some_iff_getElem]
      refine ⟨hi1, by simp [hb'], ?_⟩
      intro j hj hcontra
      rw [beq_iff_eq] at hcontra
      have hj' : j < BIDS.length := by omega
      have : BIDS[j] = BIDS[i + 1] := by rw [hb']; exact hcontra
      have := (List.Nodup.getElem_inj_iff nodup_BIDS).mp this
      omega
    unfold bidIdx
    rw [hf, hfi']
    rw [length_BIDS] at hi
    refine ⟨rfl, hmem, ?_⟩
    show i + 1 ≤ 30
    omega

theorem highestL_append (l : List String) (b : String) :
    highestL (l ++ [b]) = if b != "P" then some b else highestL l := by
  unfold highestL
  rw [List.reverse_append]
  simp only [List.reverse_cons, List.reverse_nil, List.nil_append, List.cons_append,
    List.find?_cons]
  by_cases hb : (b != "P") = true
  · rw [hb]
    simp [hb]
  · rw [Bool.not_eq_true] at hb
    rw [hb]
    simp [hb]

theorem highestL_append_pair (l : List String) (b : String) (hb : b ≠ "P") :
    highestL (l ++ [b, "P"]) = some b := by
  have : l ++ [b, "P"] = (l ++ [b]) ++ ["P"] := by simp
  rw [this, highestL_append, highestL_append]
  simp [hb]

theorem hIdx_le_31 (a : Auctioneer) : hIdx a ≤ 31 := by
  unfold hIdx
  match highest_bid a with
  | none => simp
  | some b => exact bidIdx_le_31 b

/-! ## Claim C2: the successor function on bids -/

/-- C2: the claim says `next_bid` is defined for every real bid below
7NT and fails only past 7NT.  In the code, `BIDS` is built from
`range(1, 7)` — levels 1 through 6 — so the order stops at `"6N"`:
`next_bid("6N")` raises `IndexError` even though `"6N"` is below 7NT,
and no level-7 bid exists in the order at all.  This theorem evaluates
the code at the failing input `"6N"`. -/
theorem C2_next_bid_stops_at_6N :
    next_bid "6N" = none ∧
    "6N" ∈ BIDS ∧
    "7C" ∉ BIDS ∧ "7N" ∉ BIDS ∧
    next_bid "6S" = some "6N" := by
  refine ⟨by decide, by decide, by decide, by decide, by decide⟩

/-! ## Claim C3: adding to a finished auction fails -/

/-- C3: on every completed auction state, `add_bid` fails with the
auction-already-over error for every bid; since the embedding is
functional, the input state is untouched (no `ok` state is produced,
and the error branch reads but never rebuilds the state). -/
theorem C3_add_bid_after_completion (a : Auctioneer) (bid : String)
    (h : completed a = true) : add_bid a bid = .error .over := by
  simp [add_bid, h]

/-- Witness for C3 at the concrete four-pass state. -/
theorem C3_add_bid_after_completion_witness :
    add_bid { bids := ["P", "P", "P", "P"], dealer := "N", next_to_bid := 0 } "1C" =
      .error .over :=
  C3_add_bid_after_completion _ "1C" (by decide)

/-- C4: `completed()` is true exactly as the spec states. -/
theorem C4_completed_iff (a : Auctioneer) :
    completed a = true ↔ specCompleted a := by
  unfold completed specCompleted
  by_cases hop : has_opened a
  · rw [hop]
    simp only [Bool.not_true, Bool.false_eq_true, if_false, Bool.true_eq_false,
      false_and, false_or, true_and]
    split
    · rename_i hlen
      constructor
      · intro h
        exact absurd h (by simp)
      · intro ⟨h4, _⟩
        omega
    · rename_i hlen
      rw [List.all_eq_true]
      constructor
      · intro h
        exact ⟨by omega, fun b hb => by simpa using h b hb⟩
      · intro ⟨_, h⟩ b hb
        simpa using h b hb
  · rw [Bool.not_eq_true] at hop
    rw [hop]
    simp

/-- C8 counterexample: the hand `"AKQJ432 32 32 32"` has shape 7222 —
not balanced in the spec's sense — yet the `balanced` criterion
evaluates to true, because `Shape` is a stub that always returns
`True`. -/
theorem C8_balanced_counterexample :
    check_one (.mk "balanced" none none none []) (some "AKQJ432 32 32 32")
        (initAuctioneer "N") = .ok true ∧
    specBalanced "AKQJ432 32 32 32" = false := by
  constructor
  · rfl
  · rfl

/-- C8 amended: the `balanced` criterion evaluates to true for every
hand and auction state (the shape matcher it delegates to is a stub
returning `True`); in particular it is true whenever the hand's shape
is 4333, 4432 or 5332. -/
theorem C8_balanced_always_true (text amin amax : Option String)
    (children : List Crit) (hand : Option String) (state : Auctioneer) :
    check_one (.mk "balanced" text amin amax children) hand state = .ok true := by
  rfl

/-! ## `toNT` (the cheapest-no-trump scans) -/

theorem toNT_endsWith {n : Nat} {b nt : String} (h : toNT n b = .ok nt) :
    endsWith1 nt 'N' = true := by
  induction n generalizing b with
  | zero => cases h
  | succ n ih =>
    unfold toNT at h
    split at h
    · cases h
      assumption
    · split at h
      · exact ih h
      · cases h

theorem toNT_gt : ∀ (n : Nat) (b nt : String), toNT n b = .ok nt →
    endsWith1 b 'N' = false → (bidIdx b < bidIdx nt ∧ nt ∈ BIDS)
  | 0, b, nt, h, _ => by cases h
  | n + 1, b, nt, h, hb => by
    unfold toNT at h
    rw [hb] at h
    simp only [Bool.false_eq_true, if_false] at h
    match hnb : next_bid b with
    | none => rw [hnb] at h; cases h
    | some b1 =>
      rw [hnb] at h
      obtain ⟨hstep, hmem, hle⟩ := next_bid_spec hnb
      by_cases hb1 : endsWith1 b1 'N'
      · cases n with
        | zero => cases h
        | succ m =>
          unfold toNT at h
          rw [hb1] at h
          simp only [if_true] at h
          cases h
          exact ⟨by omega, hmem⟩
      · have ih := toNT_gt n b1 nt h (by simpa using hb1)
        exact ⟨by omega, ih.2⟩

theorem isFuelErr_false {α : Type} {r : Except BErr α}
    (h : isFuelErr r = false) : r ≠ .error .fuel := by
  intro he
  rw [he] at h
  cases h

theorem toNT6_no_fuel_mem : ∀ b ∈ BIDS, isFuelErr (toNT 6 b) = false := by decide

theorem toNT6_nofuel (b : String) : toNT 6 b ≠ .error .fuel := by
  by_cases hb : b ∈ BIDS
  · exact isFuelErr_false (toNT6_no_fuel_mem b hb)
  · unfold toNT
    split
    · intro h
      cases h
    · have : BIDS.findIdx? (· == b) = none := by
        rw [List.findIdx?_eq_none_iff]
        intro x hx
        rw [beq_eq_false_iff_ne]
        intro he
        exact hb (he ▸ hx)
      unfold next_bid
      rw [this]
      intro h
      cases h


/-! ## Claim C10: characterisation of `highest_bid` -/

theorem find?_eq_head?_filter (p : String → Bool) (l : List String) :
    l.find? p = (l.filter p).head? := by
  induction l with
  | nil => rfl
  | cons x t ih =>
    by_cases hx : p x
    · rw [List.find?_cons_of_pos _ hx, List.filter_cons_of_pos hx]
      rfl
    · rw [List.find?_cons_of_neg _ hx, List.filter_cons_of_neg hx, ih]

/-- C10: `highest_bid()` is `None` exactly when the auction has not
opened, and otherwise returns the most recent non-Pass bid — the last
element of the history filtered to real bids. -/
theorem C10_highest_bid_spec (a : Auctioneer) :
    (highest_bid a = none ↔ has_opened a = false) ∧
    highest_bid a = (a.bids.filter (· != "P")).getLast? := by
  constructor
  · rw [has_opened_eq_any]
    unfold highest_bid highestL
    rw [List.find?_eq_none]
    constructor
    · intro h
      rw [Bool.eq_false_iff]
      intro hany
      rw [List.any_eq_true] at hany
      obtain ⟨x, hx, hpx⟩ := hany
      exact absurd hpx (by simpa using h x (by simpa using hx))
    · intro h x hx
      rw [Bool.eq_false_iff] at h
      by_contra hpx
      exact h (List.any_eq_true.mpr ⟨x, by simpa using hx, by simpa using hpx⟩)
  · unfold highest_bid highestL
    rw [find?_eq_head?_filter, List.getLast?_eq_head?_reverse, List.filter_reverse]

/-! ## Bind and index helpers for the CONFI proofs -/

theorem ok_bind {α β : Type} (a : α) (f : α → Except BErr β) :
    (Except.ok a : Except BErr α) >>= f = f a := rfl

theorem findIdx?_of_getElem? {j : Nat} {x : String} (h : BIDS[j]? = some x) :
    BIDS.findIdx? (· == x) = some j := by
  obtain ⟨hj, hx⟩ := List.getElem?_eq_some_iff.mp h
  rw [List.findIdx?_eq_some_iff_getElem]
  refine ⟨hj, by simp [hx], ?_⟩
  intro k hk hcontra
  rw [beq_iff_eq] at hcontra
  have hk' : k < BIDS.length := by omega
  have : BIDS[k] = BIDS[j] := by
    rw [hx]
    exact hcontra
  have := (List.Nodup.getElem_inj_iff nodup_BIDS).mp this
  omega

theorem all_passN_replicate {n : Nat} {a a' : Auctioneer}
    (h : all_passN n a = .ok a') : ∃ k, a'.bids = a.bids ++ List.replicate k "P" := by
  induction n generalizing a with
  | zero => cases h
  | succ n ih =>
    unfold all_passN at h
    split at h
    · cases h
      exact ⟨0, by simp⟩
    · split at h
      · rename_i a1 hadd
        obtain ⟨k, hk⟩ := ih h
        refine ⟨k + 1, ?_⟩
        rw [hk, add_bid_bids hadd]
        simp [List.replicate_succ]
      · cases h

theorem find?_eq_some_split {p : String → Bool} :
    ∀ {l : List String} {x : String}, l.find? p = some x →
      ∃ pre post, l = pre ++ x :: post ∧ (∀ y ∈ pre, p y = false)
  | [], x, h => by cases h
  | a :: t, x, h => by
    by_cases hp : p a
    · rw [List.find?_cons_of_pos _ hp] at h
      cases h
      exact ⟨[], t, rfl, by simp⟩
    · rw [List.find?_cons_of_neg _ hp] at h
      obtain ⟨pre, post, heq, hpre⟩ := find?_eq_some_split h
      refine ⟨a :: pre, post, by rw [heq]; rfl, ?_⟩
      intro y hy
      rcases List.mem_cons.mp hy with hy | hy
      · rw [hy]
        simpa using hp
      · exact hpre y hy

/-! ## Claim C6: the CONFI control step -/

/-- C6: when the CONFI hand-off is invoked on a state whose `bids[-2]`
is the asking bid `ask` (at index `i` of the bid order) and the
opener's hand evaluates to `oc` controls, the opener's first convention
bid `stepBid` sits exactly `max(oc - 6, 0) + 1` positions above `ask`
in the bid order (`Nat` subtraction is exactly the `max` with 0), and
is immediately followed by the forced `"P"`. -/
theorem C6_control_step (hands : List (Option String)) (st : Auctioneer)
    (h : String) (ask stepBid : String) (i : Nat)
    (hhand : handAt hands st.next_to_bid = .ok h)
    (hask : pyNeg2 st.bids = some ask)
    (hi : BIDS.findIdx? (· == ask) = some i)
    (hstep : BIDS[i + (ControlEvaluator h - 6 + 1)]? = some stepBid)
    (hnc : completed st = false) :
    ∃ st', confiOpening hands st = .ok (st', ControlEvaluator h) ∧
      st'.bids = st.bids ++ [stepBid, "P"] ∧
      bidIdx stepBid = bidIdx ask + (ControlEvaluator h - 6 + 1) := by
  unfold confiOpening
  simp only [hhand, ok_bind, hask, hi, hstep]
  have hmem : stepBid ∈ BIDS := by
    obtain ⟨hj, hx⟩ := List.getElem?_eq_some_iff.mp hstep
    rw [← hx]
    exact List.getElem_mem _
  have hne : stepBid ≠ "P" := mem_BIDS_ne_P hmem
  have h1 : ∃ st1, add_bid st stepBid = .ok st1 := by
    unfold add_bid
    rw [hnc]
    exact ⟨_, rfl⟩
  obtain ⟨st1, hst1⟩ := h1
  have hb1 := add_bid_bids hst1
  have h2 : ∃ st2, add_bid st1 "P" = .ok st2 := by
    unfold add_bid
    have : completed st1 = false := by
      rw [completed_congr (b := { st with bids := st.bids ++ [stepBid] }) (by simp [hb1])]
      exact completed_append_real st st.bids stepBid hne
    rw [this]
    exact ⟨_, rfl⟩
  obtain ⟨st2, hst2⟩ := h2
  refine ⟨st2, ?_, ?_, ?_⟩
  · simp only [hst1, ok_bind, hst2]
  · rw [add_bid_bids hst2, hb1, List.append_assoc]
    rfl
  · unfold bidIdx
    rw [hi, findIdx?_of_getElem? hstep]
    show i + (ControlEvaluator h - 6 + 1) + 1 = i + 1 + (ControlEvaluator h - 6 + 1)
    omega

/-- Witness for C6: the first hand of the source's unit test.  North
holds 7 controls, so the step bid is 2 above the asking bid `"3N"`:
`"4D"`, followed by the forced pass. -/
theorem C6_control_step_witness :
    ∃ st', confiOpening [some "AQ3 AK3 J2 AQ652", none, some "K9742 J2 QJ65 K3", none]
        { bids := ["2N", "P", "3N", "P"], dealer := "N", next_to_bid := 0 } =
      .ok (st', ControlEvaluator "AQ3 AK3 J2 AQ652") ∧
      st'.bids = ["2N", "P", "3N", "P"] ++ ["4D", "P"] ∧
      bidIdx "4D" = bidIdx "3N" + (ControlEvaluator "AQ3 AK3 J2 AQ652" - 6 + 1) :=
  C6_control_step _ _ _ "3N" "4D" 14 (by rfl) (by rfl) (by rfl) (by rfl) (by rfl)

/-! ## Claim C5: the CONFI sufficiency check -/

/-- C5: in the sufficiency check, when the responder's controls plus
`max(opener's reported controls, 6)` fall below 10, the responder signs
off at the cheapest no-trump at or above the current bid (`bids[-2]`,
at index `i`): whatever `find?` returns is a no-trump bid preceded only
by non-no-trump bids in `BIDS.drop i`, the auction is then passed out
(completed, with only passes appended); and if no no-trump bid exists
at or above the current bid, the run fails with the `noSignoff` error
(`Exception("No cheapest NT?")`) instead of recovering. -/
theorem C5_sufficiency_check (hands : List (Option String)) (st : Auctioneer)
    (oc : Nat) (h ask : String) (i : Nat)
    (hhand : handAt hands st.next_to_bid = .ok h)
    (hlow : ControlEvaluator h + max oc 6 < 10)
    (hask : pyNeg2 st.bids = some ask)
    (hi : BIDS.findIdx? (· == ask) = some i)
    (hnc : completed st = false) :
    (∀ nt, (BIDS.drop i).find? (fun b => endsWith1 b 'N') = some nt →
       ∃ st' k, confiSuff hands st oc = .ok (some st') ∧
         completed st' = true ∧
         st'.bids = st.bids ++ [nt] ++ List.replicate k "P" ∧
         endsWith1 nt 'N' = true ∧
         (∃ pre post, BIDS.drop i = pre ++ nt :: post ∧
            ∀ y ∈ pre, endsWith1 y 'N' = false)) ∧
    ((BIDS.drop i).find? (fun b => endsWith1 b 'N') = none →
       confiSuff hands st oc = .error .noSignoff) := by
  constructor
  · intro nt hnt
    have hmem : nt ∈ BIDS :=
      List.mem_of_mem_drop (List.mem_of_find?_eq_some hnt)
    have hne := mem_BIDS_ne_P hmem
    have h1 : ∃ st1, add_bid st nt = .ok st1 := by
      unfold add_bid
      rw [hnc]
      exact ⟨_, rfl⟩
    obtain ⟨st1, hst1⟩ := h1
    have hb1 := add_bid_bids hst1
    have hop1 : has_opened st1 = true := by
      rw [has_opened_ok_add hst1]
      simp [hne]
    obtain ⟨st2, hst2⟩ := all_pass_ok st1 (Or.inl hop1)
    obtain ⟨k, hk⟩ := all_passN_replicate hst2
    refine ⟨st2, k, ?_, all_passN_completed hst2, ?_,
      List.find?_some (p := fun b => endsWith1 b 'N') hnt,
      find?_eq_some_split hnt⟩
    · unfold confiSuff
      simp only [hhand, ok_bind]
      rw [if_pos hlow]
      simp only [hask, hi, hnt, hst1, ok_bind]
      simp only [hst2, ok_bind]
    · rw [hk, hb1, List.append_assoc]
  · intro hnone
    unfold confiSuff
    simp only [hhand, ok_bind]
    rw [if_pos hlow]
    simp only [hask, hi, hnone]

/-- Witness for C5 on the first unit-test deal: after `4D P` the
responder holds 2 controls, `2 + max(7, 6) = 9 < 10`, and the sign-off
lands on `"4N"` followed by the pass-out. -/
theorem C5_sufficiency_check_witness :
    ∃ st' k, confiSuff [some "AQ3 AK3 J2 AQ652", none, some "K9742 J2 QJ65 K3", none]
        { bids := ["2N", "P", "3N", "P", "4D", "P"], dealer := "N", next_to_bid := 2 } 7 =
        .ok (some st') ∧
      completed st' = true ∧
      st'.bids = ["2N", "P", "3N", "P", "4D", "P"] ++ ["4N"] ++ List.replicate k "P" ∧
      endsWith1 "4N" 'N' = true ∧
      (∃ pre post, BIDS.drop 16 = pre ++ "4N" :: post ∧
         ∀ y ∈ pre, endsWith1 y 'N' = false) :=
  (C5_sufficiency_check _ _ 7 "K9742 J2 QJ65 K3" "4D" 16
    (by rfl) (by decide) (by rfl) (by rfl) (by rfl)).1 "4N" (by rfl)

/-! ## Machinery for the termination and run-invariant claims -/


theorem err_bind {α β : Type} (e : BErr) (f : α → Except BErr β) :
    (Except.error e : Except BErr α) >>= f = .error e := rfl

theorem nofuel_error {α : Type} {r : Except BErr α} {e : BErr}
    (hr : r ≠ .error .fuel) (he : r = .error e) : e ≠ .fuel := by
  intro h
  rw [h] at he
  exact hr he

theorem handAt_nofuel (hands : List (Option String)) (i : Nat) :
    handAt hands i ≠ .error .fuel := by
  unfold handAt
  split <;> simp

theorem suitHolding_nofuel (hand : String) (i : Nat) :
    suitHolding hand i ≠ .error .fuel := by
  unfold suitHolding
  split <;> simp

theorem getFlags_nofuel (fl : List (Option (List Bool))) (i : Int) :
    getFlags fl i ≠ .error .fuel := by
  unfold getFlags
  split <;> simp

theorem flagAt_nofuel (l : List Bool) (si : Nat) :
    flagAt l si ≠ .error .fuel := by
  unfold flagAt
  split <;> simp

theorem setFlag_nofuel (fl : List (Option (List Bool))) (i si : Nat) :
    setFlag fl i si ≠ .error .fuel := by
  unfold setFlag
  split
  · split <;> simp
  · simp
  · simp

theorem bidLevel_nofuel (bid : String) : bidLevel bid ≠ .error .fuel := by
  unfold bidLevel
  split
  · simp
  · split <;> simp

theorem pyLast_nofuel (s : String) : pyLast s ≠ .error .fuel := by
  unfold pyLast
  split <;> simp

theorem suitsIndex_nofuel (c : String) : suitsIndex c ≠ .error .fuel := by
  unfold suitsIndex
  split <;> simp

theorem add_bid_nofuel (a : Auctioneer) (bid : String) :
    add_bid a bid ≠ .error .fuel := by
  unfold add_bid
  split <;> simp

theorem longSuitGo_nofuel (hand : String) :
    ∀ l : List (Nat × String), longSuitGo hand l ≠ .error .fuel
  | [] => by
    unfold longSuitGo
    simp
  | (i, suit) :: rest => by
    unfold longSuitGo
    cases hsh : suitHolding hand i with
    | error e =>
      rw [err_bind]
      have := nofuel_error (suitHolding_nofuel hand i) hsh
      simp [this]
    | ok holding =>
      rw [ok_bind]
      split
      · simp
      · exact longSuitGo_nofuel hand rest

theorem fitScanGo_nofuel (hand : String) (minLen : Nat) :
    ∀ l : List (Nat × Bool), fitScanGo hand minLen l ≠ .error .fuel
  | [] => by
    unfold fitScanGo
    simp
  | (i, b) :: rest => by
    unfold fitScanGo
    split
    · exact fitScanGo_nofuel hand minLen rest
    · cases hsh : suitHolding hand i with
      | error e =>
        rw [err_bind]
        have := nofuel_error (suitHolding_nofuel hand i) hsh
        simp [this]
      | ok holding =>
        rw [ok_bind]
        split
        · exact fitScanGo_nofuel hand minLen rest
        · simp



theorem err_case {α : Type} {e : BErr} {P : α → Prop} (he : e ≠ .fuel) :
    (Except.error e : Except BErr α) ≠ .error .fuel ∧
    ∀ c', (Except.error e : Except BErr α) = .ok c' → P c' :=
  ⟨by simp [he], fun c' h => Except.noConfusion h⟩

theorem intro4Go_spec (hand : String) :
    ∀ (n : Nat) (bid : String) (c : ConfiSt),
      intro4Go hand c bid n ≠ .error .fuel ∧
      ∀ c', intro4Go hand c bid n = .ok c' →
        (c'.st = c.st ∨
          ∃ b2, b2 ∈ BIDS ∧ bidIdx bid < bidIdx b2 ∧ Steps c.st c'.st ∧
            c'.st.bids = c.st.bids ++ [b2, "P"])
  | 0, bid, c => by
    unfold intro4Go
    exact ⟨by simp, fun c' h => by cases h; exact Or.inl rfl⟩
  | n + 1, bid, c => by
    unfold intro4Go
    cases hnb : next_bid bid with
    | none =>
      dsimp only
      exact err_case (by simp)
    | some b1 =>
      dsimp only
      cases hnb2 : (if endsWith1 b1 'N' then next_bid b1 else some b1) with
      | none =>
      dsimp only
      exact err_case (by simp)
      | some b2 =>
        dsimp only
        have hb2 : bidIdx bid < bidIdx b2 ∧ b2 ∈ BIDS := by
          by_cases hN : endsWith1 b1 'N'
          · rw [if_pos hN] at hnb2
            have s1 := next_bid_spec hnb
            have s2 := next_bid_spec hnb2
            exact ⟨by omega, s2.2.1⟩
          · rw [if_neg hN] at hnb2
            cases hnb2
            have s1 := next_bid_spec hnb
            exact ⟨by omega, s1.2.1⟩
        cases hlvl : bidLevel b2 with
        | error e =>
          rw [err_bind]
          exact err_case (nofuel_error (bidLevel_nofuel b2) hlvl)
        | ok lvl =>
          simp only [ok_bind]
          split
          · exact ⟨by simp, fun c' h => by cases h; exact Or.inl rfl⟩
          · cases hlast : pyLast b2 with
            | error e =>
              rw [err_bind]
              exact err_case (nofuel_error (pyLast_nofuel b2) hlast)
            | ok lc =>
              simp only [ok_bind]
              cases hsi : suitsIndex lc with
              | error e =>
                rw [err_bind]
                exact err_case (nofuel_error (suitsIndex_nofuel lc) hsi)
              | ok si =>
                simp only [ok_bind]
                cases hsh : suitHolding hand si with
                | error e =>
                  rw [err_bind]
                  exact err_case (nofuel_error (suitHolding_nofuel hand si) hsh)
                | ok holding =>
                  simp only [ok_bind]
                  split
                  · cases hsf : setFlag c.denied4 c.st.next_to_bid si with
                    | error e =>
                      rw [err_bind]
                      exact err_case (nofuel_error (setFlag_nofuel _ _ _) hsf)
                    | ok d4 =>
                      simp only [ok_bind]
                      have ih := intro4Go_spec hand n b2 { c with denied4 := d4 }
                      refine ⟨ih.1, fun c' h => ?_⟩
                      rcases ih.2 c' h with hl | ⟨b3, hmem, hlt, hsteps, hbids⟩
                      · exact Or.inl hl
                      · exact Or.inr ⟨b3, hmem, by omega, hsteps, hbids⟩
                  · cases hgf : getFlags c.denied4 (2 - (c.st.next_to_bid : Int)) with
                    | error e =>
                      rw [err_bind]
                      exact err_case (nofuel_error (getFlags_nofuel _ _) hgf)
                    | ok pdenied =>
                      simp only [ok_bind]
                      cases hfa : flagAt pdenied si with
                      | error e =>
                        rw [err_bind]
                        exact err_case (nofuel_error (flagAt_nofuel _ _) hfa)
                      | ok pd =>
                        simp only [ok_bind]
                        split
                        · have ih := intro4Go_spec hand n b2 c
                          refine ⟨ih.1, fun c' h => ?_⟩
                          rcases ih.2 c' h with hl | ⟨b3, hmem, hlt, hsteps, hbids⟩
                          · exact Or.inl hl
                          · exact Or.inr ⟨b3, hmem, by omega, hsteps, hbids⟩
                        · cases hgo : getFlags c.showed4 (c.st.next_to_bid : Int) with
                          | error e =>
                            rw [err_bind]
                            exact err_case (nofuel_error (getFlags_nofuel _ _) hgo)
                          | ok own =>
                            simp only [ok_bind]
                            cases hfo : flagAt own si with
                            | error e =>
                              rw [err_bind]
                              exact err_case (nofuel_error (flagAt_nofuel _ _) hfo)
                            | ok ow =>
                              simp only [ok_bind]
                              split
                              · have ih := intro4Go_spec hand n b2 c
                                refine ⟨ih.1, fun c' h => ?_⟩
                                rcases ih.2 c' h with hl | ⟨b3, hmem, hlt, hsteps, hbids⟩
                                · exact Or.inl hl
                                · exact Or.inr ⟨b3, hmem, by omega, hsteps, hbids⟩
                              · cases hsf : setFlag c.showed4 c.st.next_to_bid si with
                                | error e =>
                                  rw [err_bind]
                                  exact err_case (nofuel_error (setFlag_nofuel _ _ _) hsf)
                                | ok s4 =>
                                  simp only [ok_bind]
                                  cases hadd1 : add_bid c.st b2 with
                                  | error e =>
                                    rw [err_bind]
                                    exact err_case (nofuel_error (add_bid_nofuel _ _) hadd1)
                                  | ok st1 =>
                                    simp only [ok_bind]
                                    cases hadd2 : add_bid st1 "P" with
                                    | error e =>
                                      rw [err_bind]
                                      exact err_case (nofuel_error (add_bid_nofuel _ _) hadd2)
                                    | ok st2 =>
                                      simp only [ok_bind]
                                      refine ⟨by simp, fun c' h => ?_⟩
                                      cases h
                                      refine Or.inr ⟨b2, hb2.2, hb2.1, ?_, ?_⟩
                                      · exact (Steps.single hadd1).trans (Steps.single hadd2)
                                      · rw [add_bid_bids hadd2, add_bid_bids hadd1,
                                          List.append_assoc]
                                        rfl



theorem intro5Go_spec (hand : String) :
    ∀ (n : Nat) (bid : String) (c : ConfiSt),
      intro5Go hand c bid n ≠ .error .fuel ∧
      ∀ c', intro5Go hand c bid n = .ok c' →
        (c'.st = c.st ∨
          ∃ b2, b2 ∈ BIDS ∧ bidIdx bid < bidIdx b2 ∧ Steps c.st c'.st ∧
            c'.st.bids = c.st.bids ++ [b2, "P"])
  | 0, bid, c => by
    unfold intro5Go
    exact ⟨by simp, fun c' h => by cases h; exact Or.inl rfl⟩
  | n + 1, bid, c => by
    unfold intro5Go
    cases hnb : next_bid bid with
    | none =>
      dsimp only
      exact err_case (by simp)
    | some b1 =>
      dsimp only
      cases hnb2 : (if endsWith1 b1 'N' then next_bid b1 else some b1) with
      | none =>
        dsimp only
        exact err_case (by simp)
      | some b2 =>
        dsimp only
        have hb2 : bidIdx bid < bidIdx b2 ∧ b2 ∈ BIDS := by
          by_cases hN : endsWith1 b1 'N'
          · rw [if_pos hN] at hnb2
            have s1 := next_bid_spec hnb
            have s2 := next_bid_spec hnb2
            exact ⟨by omega, s2.2.1⟩
          · rw [if_neg hN] at hnb2
            cases hnb2
            have s1 := next_bid_spec hnb
            exact ⟨by omega, s1.2.1⟩
        cases hlvl : bidLevel b2 with
        | error e =>
          rw [err_bind]
          exact err_case (nofuel_error (bidLevel_nofuel b2) hlvl)
        | ok lvl =>
          simp only [ok_bind]
          split
          · exact ⟨by simp, fun c' h => by cases h; exact Or.inl rfl⟩
          · cases hlast : pyLast b2 with
            | error e =>
              rw [err_bind]
              exact err_case (nofuel_error (pyLast_nofuel b2) hlast)
            | ok lc =>
              simp only [ok_bind]
              cases hsi : suitsIndex lc with
              | error e =>
                rw [err_bind]
                exact err_case (nofuel_error (suitsIndex_nofuel lc) hsi)
              | ok si =>
                simp only [ok_bind]
                cases hsh : suitHolding hand si with
                | error e =>
                  rw [err_bind]
                  exact err_case (nofuel_error (suitHolding_nofuel hand si) hsh)
                | ok holding =>
                  simp only [ok_bind]
                  split
                  · have ih := intro5Go_spec hand n b2 c
                    refine ⟨ih.1, fun c' h => ?_⟩
                    rcases ih.2 c' h with hl | ⟨b3, hmem, hlt, hsteps, hbids⟩
                    · exact Or.inl hl
                    · exact Or.inr ⟨b3, hmem, by omega, hsteps, hbids⟩
                  · cases hgo : getFlags c.showed5 (c.st.next_to_bid : Int) with
                    | error e =>
                      rw [err_bind]
                      exact err_case (nofuel_error (getFlags_nofuel _ _) hgo)
                    | ok own =>
                      simp only [ok_bind]
                      cases hfo : flagAt own si with
                      | error e =>
                        rw [err_bind]
                        exact err_case (nofuel_error (flagAt_nofuel _ _) hfo)
                      | ok ow =>
                        simp only [ok_bind]
                        split
                        · have ih := intro5Go_spec hand n b2 c
                          refine ⟨ih.1, fun c' h => ?_⟩
                          rcases ih.2 c' h with hl | ⟨b3, hmem, hlt, hsteps, hbids⟩
                          · exact Or.inl hl
                          · exact Or.inr ⟨b3, hmem, by omega, hsteps, hbids⟩
                        · cases hsf : setFlag c.showed5 c.st.next_to_bid si with
                          | error e =>
                            rw [err_bind]
                            exact err_case (nofuel_error (setFlag_nofuel _ _ _) hsf)
                          | ok s5 =>
                            simp only [ok_bind]
                            cases hadd1 : add_bid c.st b2 with
                            | error e =>
                              rw [err_bind]
                              exact err_case (nofuel_error (add_bid_nofuel _ _) hadd1)
                            | ok st1 =>
                              simp only [ok_bind]
                              cases hadd2 : add_bid st1 "P" with
                              | error e =>
                                rw [err_bind]
                                exact err_case (nofuel_error (add_bid_nofuel _ _) hadd2)
                              | ok st2 =>
                                simp only [ok_bind]
                                refine ⟨by simp, fun c' h => ?_⟩
                                cases h
                                refine Or.inr ⟨b2, hb2.2, hb2.1, ?_, ?_⟩
                                · exact (Steps.single hadd1).trans (Steps.single hadd2)
                                · rw [add_bid_bids hadd2, add_bid_bids hadd1,
                                    List.append_assoc]
                                  rfl

theorem intro3Go_spec (hand : String) (curLvl : Nat) :
    ∀ (n : Nat) (bid : String) (c : ConfiSt),
      intro3Go hand curLvl c bid n ≠ .error .fuel ∧
      ∀ c', intro3Go hand curLvl c bid n = .ok c' →
        (c'.st = c.st ∨
          ∃ b2, b2 ∈ BIDS ∧ bidIdx bid < bidIdx b2 ∧ Steps c.st c'.st ∧
            c'.st.bids = c.st.bids ++ [b2, "P"])
  | 0, bid, c => by
    unfold intro3Go
    exact ⟨by simp, fun c' h => by cases h; exact Or.inl rfl⟩
  | n + 1, bid, c => by
    unfold intro3Go
    cases hnb : next_bid bid with
    | none =>
      dsimp only
      exact err_case (by simp)
    | some b1 =>
      dsimp only
      cases hnb2 : (if endsWith1 b1 'N' then next_bid b1 else some b1) with
      | none =>
        dsimp only
        exact err_case (by simp)
      | some b2 =>
        dsimp only
        have hb2 : bidIdx bid < bidIdx b2 ∧ b2 ∈ BIDS := by
          by_cases hN : endsWith1 b1 'N'
          · rw [if_pos hN] at hnb2
            have s1 := next_bid_spec hnb
            have s2 := next_bid_spec hnb2
            exact ⟨by omega, s2.2.1⟩
          · rw [if_neg hN] at hnb2
            cases hnb2
            have s1 := next_bid_spec hnb
            exact ⟨by omega, s1.2.1⟩
        cases hlvl : bidLevel b2 with
        | error e =>
          rw [err_bind]
          exact err_case (nofuel_error (bidLevel_nofuel b2) hlvl)
        | ok lvl =>
          simp only [ok_bind]
          split
          · exact ⟨by simp, fun c' h => by cases h; exact Or.inl rfl⟩
          · split
            · exact ⟨by simp, fun c' h => by cases h; exact Or.inl rfl⟩
            · cases hlast : pyLast b2 with
              | error e =>
                rw [err_bind]
                exact err_case (nofuel_error (pyLast_nofuel b2) hlast)
              | ok lc =>
                simp only [ok_bind]
                cases hsi : suitsIndex lc with
                | error e =>
                  rw [err_bind]
                  exact err_case (nofuel_error (suitsIndex_nofuel lc) hsi)
                | ok si =>
                  simp only [ok_bind]
                  cases hsh : suitHolding hand si with
                  | error e =>
                    rw [err_bind]
                    exact err_case (nofuel_error (suitHolding_nofuel hand si) hsh)
                  | ok holding =>
                    simp only [ok_bind]
                    split
                    · have ih := intro3Go_spec hand curLvl n b2 c
                      refine ⟨ih.1, fun c' h => ?_⟩
                      rcases ih.2 c' h with hl | ⟨b3, hmem, hlt, hsteps, hbids⟩
                      · exact Or.inl hl
                      · exact Or.inr ⟨b3, hmem, by omega, hsteps, hbids⟩
                    · cases hgo : getFlags c.showed3 (c.st.next_to_bid : Int) with
                      | error e =>
                        rw [err_bind]
                        exact err_case (nofuel_error (getFlags_nofuel _ _) hgo)
                      | ok own =>
                        simp only [ok_bind]
                        cases hfo : flagAt own si with
                        | error e =>
                          rw [err_bind]
                          exact err_case (nofuel_error (flagAt_nofuel _ _) hfo)
                        | ok ow =>
                          simp only [ok_bind]
                          split
                          · have ih := intro3Go_spec hand curLvl n b2 c
                            refine ⟨ih.1, fun c' h => ?_⟩
                            rcases ih.2 c' h with hl | ⟨b3, hmem, hlt, hsteps, hbids⟩
                            · exact Or.inl hl
                            · exact Or.inr ⟨b3, hmem, by omega, hsteps, hbids⟩
                          · cases hgp : getFlags c.showed4 (2 - (c.st.next_to_bid : Int)) with
                            | error e =>
                              rw [err_bind]
                              exact err_case (nofuel_error (getFlags_nofuel _ _) hgp)
                            | ok p4 =>
                              simp only [ok_bind]
                              cases hfp : flagAt p4 si with
                              | error e =>
                                rw [err_bind]
                                exact err_case (nofuel_error (flagAt_nofuel _ _) hfp)
                              | ok pb =>
                                simp only [ok_bind]
                                split
                                · have ih := intro3Go_spec hand curLvl n b2 c
                                  refine ⟨ih.1, fun c' h => ?_⟩
                                  rcases ih.2 c' h with hl | ⟨b3, hmem, hlt, hsteps, hbids⟩
                                  · exact Or.inl hl
                                  · exact Or.inr ⟨b3, hmem, by omega, hsteps, hbids⟩
                                · cases hsf : setFlag c.showed3 c.st.next_to_bid si with
                                  | error e =>
                                    rw [err_bind]
                                    exact err_case (nofuel_error (setFlag_nofuel _ _ _) hsf)
                                  | ok s3 =>
                                    simp only [ok_bind]
                                    cases hadd1 : add_bid c.st b2 with
                                    | error e =>
                                      rw [err_bind]
                                      exact err_case (nofuel_error (add_bid_nofuel _ _) hadd1)
                                    | ok st1 =>
                                      simp only [ok_bind]
                                      cases hadd2 : add_bid st1 "P" with
                                      | error e =>
                                        rw [err_bind]
                                        exact err_case (nofuel_error (add_bid_nofuel _ _) hadd2)
                                      | ok st2 =>
                                        simp only [ok_bind]
                                        refine ⟨by simp, fun c' h => ?_⟩
                                        cases h
                                        refine Or.inr ⟨b2, hb2.2, hb2.1, ?_, ?_⟩
                                        · exact (Steps.single hadd1).trans (Steps.single hadd2)
                                        · rw [add_bid_bids hadd2, add_bid_bids hadd1,
                                            List.append_assoc]
                                          rfl



theorem opened_of_highest {a : Auctioneer} {b : String}
    (h : highest_bid a = some b) : has_opened a = true := by
  rw [has_opened_eq_any]
  unfold highest_bid highestL at h
  have hmem := List.mem_of_find?_eq_some h
  have hp := List.find?_some h
  exact List.any_eq_true.mpr ⟨b, by simpa using hmem, hp⟩

theorem hIdx_of_highest {a : Auctioneer} {b : String}
    (h : highest_bid a = some b) : hIdx a = bidIdx b := by
  unfold hIdx
  rw [h]

theorem hIdx_append_pair {a a' : Auctioneer} {b : String} (hb : b ≠ "P")
    (h : a'.bids = a.bids ++ [b, "P"]) : hIdx a' = bidIdx b := by
  unfold hIdx highest_bid
  rw [h, highestL_append_pair _ _ hb]

theorem append_ne_P (suit : String) : ("6" ++ suit) ≠ "P" := by
  intro he
  have h1 : '6' :: suit.toList = ['P'] := congrArg String.toList he
  simp at h1

theorem bid6S_spec (st : Auctioneer) (suit : String) :
    bid6S st suit ≠ .error .fuel ∧
    ∀ st', bid6S st suit = .ok st' → Steps st st' ∧ completed st' = true := by
  unfold bid6S
  cases hadd : add_bid st ("6" ++ suit) with
  | error e =>
    rw [err_bind]
    exact err_case (nofuel_error (add_bid_nofuel _ _) hadd)
  | ok st1 =>
    simp only [ok_bind]
    have hop : has_opened st1 = true := by
      rw [has_opened_ok_add hadd]
      simp [append_ne_P suit]
    obtain ⟨st2, h2⟩ := all_pass_ok st1 (Or.inl hop)
    constructor
    · rw [h2]
      simp
    · intro st' h'
      rw [h2] at h'
      cases h'
      exact ⟨(Steps.single hadd).trans (all_passN_steps h2), all_passN_completed h2⟩

theorem bid6I_spec (st : Auctioneer) (i : Nat) :
    bid6I st i ≠ .error .fuel ∧
    ∀ st', bid6I st i = .ok st' → Steps st st' ∧ completed st' = true := by
  unfold bid6I
  cases h : SUITS[i]? with
  | none =>
    dsimp only
    exact err_case (by simp)
  | some suit =>
    dsimp only
    exact bid6S_spec st suit

theorem confiMinCheck_spec (hands : List (Option String)) (opener : Nat) (c : ConfiSt) :
    confiMinCheck hands opener c ≠ .error .fuel ∧
    (∀ st, confiMinCheck hands opener c = .ok (.inl st) →
       Steps c.st st ∧ completed st = true) ∧
    (∀ c', confiMinCheck hands opener c = .ok (.inr c') →
       Steps c.st c'.st ∧ hIdx c.st ≤ hIdx c'.st) := by
  unfold confiMinCheck
  split
  · dsimp only
    cases hh : handAt hands c.st.next_to_bid with
    | error e =>
      rw [err_bind]
      have he := nofuel_error (handAt_nofuel _ _) hh
      exact ⟨by simp [he], fun st h => Except.noConfusion h, fun c' h => Except.noConfusion h⟩
    | ok current_hand =>
      simp only [ok_bind]
      split
      · -- opener_controls < 6
        cases hhb : highest_bid c.st with
        | none =>
          dsimp only
          exact ⟨by simp, fun st h => Except.noConfusion h, fun c' h => Except.noConfusion h⟩
        | some current_bid =>
          dsimp only
          split
          · -- current bid is NT: all_pass
            have hop := opened_of_highest hhb
            obtain ⟨st2, h2⟩ := all_pass_ok c.st (Or.inl hop)
            cases hap : all_pass c.st with
            | error e =>
              rw [h2] at hap
              cases hap
            | ok stx =>
              rw [h2] at hap
              cases hap
              simp only [ok_bind]
              refine ⟨by simp, fun st h => ?_, fun c' h => Sum.noConfusion (Except.ok.inj h)⟩
              cases Except.ok.inj h
              exact ⟨all_passN_steps h2, all_passN_completed h2⟩
          · -- sign off at cheapest NT
            rename_i hnN
            cases hnt : toNT 6 current_bid with
            | error e =>
              rw [err_bind]
              have he := nofuel_error (toNT6_nofuel _) hnt
              exact ⟨by simp [he], fun st h => Except.noConfusion h,
                     fun c' h => Except.noConfusion h⟩
            | ok nt =>
              simp only [ok_bind]
              have hgt := toNT_gt 6 current_bid nt hnt (by simpa using hnN)
              have hntP : nt ≠ "P" := mem_BIDS_ne_P hgt.2
              cases hadd1 : add_bid c.st nt with
              | error e =>
                rw [err_bind]
                have he := nofuel_error (add_bid_nofuel _ _) hadd1
                exact ⟨by simp [he], fun st h => Except.noConfusion h,
                       fun c' h => Except.noConfusion h⟩
              | ok st1 =>
                simp only [ok_bind]
                cases hadd2 : add_bid st1 "P" with
                | error e =>
                  rw [err_bind]
                  have he := nofuel_error (add_bid_nofuel _ _) hadd2
                  exact ⟨by simp [he], fun st h => Except.noConfusion h,
                         fun c' h => Except.noConfusion h⟩
                | ok st2 =>
                  simp only [ok_bind]
                  have hsteps : Steps c.st st2 :=
                    (Steps.single hadd1).trans (Steps.single hadd2)
                  have hbids2 : st2.bids = c.st.bids ++ [nt, "P"] := by
                    rw [add_bid_bids hadd2, add_bid_bids hadd1, List.append_assoc]
                    rfl
                  have hidx2 : hIdx st2 = bidIdx nt := hIdx_append_pair hntP hbids2
                  cases hh2 : handAt hands st2.next_to_bid with
                  | error e =>
                    rw [err_bind]
                    have he := nofuel_error (handAt_nofuel _ _) hh2
                    exact ⟨by simp [he], fun st h => Except.noConfusion h,
                           fun c' h => Except.noConfusion h⟩
                  | ok hand2 =>
                    simp only [ok_bind]
                    split
                    · -- responder signs off: all_pass st2
                      have hop2 : has_opened st2 = true := by
                        rw [has_opened_ok_add hadd2, has_opened_ok_add hadd1]
                        simp [hntP]
                      obtain ⟨st3, h3⟩ := all_pass_ok st2 (Or.inl hop2)
                      cases hap : all_pass st2 with
                      | error e =>
                        rw [h3] at hap
                        cases hap
                      | ok stx =>
                        rw [h3] at hap
                        cases hap
                        simp only [ok_bind]
                        refine ⟨by simp, fun st h => ?_,
                                fun c' h => Sum.noConfusion (Except.ok.inj h)⟩
                        cases Except.ok.inj h
                        exact ⟨hsteps.trans (all_passN_steps h3), all_passN_completed h3⟩
                    · refine ⟨by simp, fun st h => Sum.noConfusion (Except.ok.inj h),
                              fun c' h => ?_⟩
                      cases Except.ok.inj h
                      refine ⟨hsteps, ?_⟩
                      rw [hidx2, hIdx_of_highest hhb]
                      omega
      · -- opener_controls ≥ 6: fall through with ofr cleared
        refine ⟨by simp, fun st h => Sum.noConfusion (Except.ok.inj h), fun c' h => ?_⟩
        cases Except.ok.inj h
        exact ⟨.refl _, le_refl _⟩
  · -- not the opener's first rebid
    refine ⟨by simp, fun st h => Sum.noConfusion (Except.ok.inj h), fun c' h => ?_⟩
    cases Except.ok.inj h
    exact ⟨.refl _, le_refl _⟩




theorem highest_of_append_pair {a a' : Auctioneer} {b : String} (hb : b ≠ "P")
    (h : a'.bids = a.bids ++ [b, "P"]) : highest_bid a' = some b := by
  unfold highest_bid
  rw [h]
  exact highestL_append_pair _ _ hb

/-- Common reasoning for the three suit-introduction stages of the CONFI
loop body: either the stage bid (then the `continue` test fires and the
highest-bid index strictly grew), or it left the auction untouched. -/
theorem introStage {c0 cM cN : ConfiSt} {cb : String}
    (hhb : highest_bid cM.st = some cb)
    (hsteps0 : Steps c0.st cM.st) (hidx0 : hIdx c0.st ≤ hIdx cM.st)
    (hdisj : cN.st = cM.st ∨
      ∃ b2, b2 ∈ BIDS ∧ bidIdx cb < bidIdx b2 ∧ Steps cM.st cN.st ∧
        cN.st.bids = cM.st.bids ++ [b2, "P"]) :
    ((some cb != highest_bid cN.st) = true →
        Steps c0.st cN.st ∧ hIdx c0.st < hIdx cN.st) ∧
    ((some cb != highest_bid cN.st) = false → cN.st = cM.st) := by
  constructor
  · intro hne
    rcases hdisj with hl | ⟨b2, hmem, hlt, hs, hb⟩
    · exfalso
      rw [bne_iff_ne] at hne
      exact hne (by rw [hl, hhb])
    · have hh1 : highest_bid cN.st = some b2 :=
        highest_of_append_pair (mem_BIDS_ne_P hmem) hb
      refine ⟨hsteps0.trans hs, ?_⟩
      rw [hIdx_of_highest hh1]
      have h2 := hIdx_of_highest hhb
      omega
  · intro heq
    rcases hdisj with hl | ⟨b2, hmem, hlt, hs, hb⟩
    · exact hl
    · exfalso
      have hh1 : highest_bid cN.st = some b2 :=
        highest_of_append_pair (mem_BIDS_ne_P hmem) hb
      rw [hh1] at heq
      simp only [bne_eq_false_iff_eq, Option.some.injEq] at heq
      rw [heq] at hlt
      omega



theorem err_triple {e : BErr} {P : Auctioneer → Prop} {Q : ConfiSt → Prop}
    (he : e ≠ .fuel) :
    (Except.error e : Except BErr (Auctioneer ⊕ ConfiSt)) ≠ .error .fuel ∧
    (∀ st, (Except.error e : Except BErr (Auctioneer ⊕ ConfiSt)) = .ok (.inl st) → P st) ∧
    (∀ c', (Except.error e : Except BErr (Auctioneer ⊕ ConfiSt)) = .ok (.inr c') → Q c') :=
  ⟨by simp [he], fun st h => Except.noConfusion h, fun c' h => Except.noConfusion h⟩

theorem done_triple {st1 : Auctioneer} {P : Auctioneer → Prop} {Q : ConfiSt → Prop}
    (hp : P st1) :
    (Except.ok (Sum.inl st1) : Except BErr (Auctioneer ⊕ ConfiSt)) ≠ .error .fuel ∧
    (∀ st, (Except.ok (Sum.inl st1) : Except BErr (Auctioneer ⊕ ConfiSt)) = .ok (.inl st) → P st) ∧
    (∀ c', (Except.ok (Sum.inl st1) : Except BErr (Auctioneer ⊕ ConfiSt)) = .ok (.inr c') → Q c') :=
  ⟨by simp, fun st h => by cases Sum.inl.inj (Except.ok.inj h); exact hp,
   fun c' h => Sum.noConfusion (Except.ok.inj h)⟩

theorem cont_triple {c1 : ConfiSt} {P : Auctioneer → Prop} {Q : ConfiSt → Prop}
    (hq : Q c1) :
    (Except.ok (Sum.inr c1) : Except BErr (Auctioneer ⊕ ConfiSt)) ≠ .error .fuel ∧
    (∀ st, (Except.ok (Sum.inr c1) : Except BErr (Auctioneer ⊕ ConfiSt)) = .ok (.inl st) → P st) ∧
    (∀ c', (Except.ok (Sum.inr c1) : Except BErr (Auctioneer ⊕ ConfiSt)) = .ok (.inr c') → Q c') :=
  ⟨by simp, fun st h => Sum.noConfusion (Except.ok.inj h),
   fun c' h => by cases Sum.inr.inj (Except.ok.inj h); exact hq⟩

theorem confiBody_spec (hands : List (Option String)) (opener : Nat) (c : ConfiSt) :
    confiBody hands opener c ≠ .error .fuel ∧
    (∀ st, confiBody hands opener c = .ok (.inl st) →
       Steps c.st st ∧ completed st = true) ∧
    (∀ c', confiBody hands opener c = .ok (.inr c') →
       Steps c.st c'.st ∧ hIdx c.st < hIdx c'.st) := by
  unfold confiBody
  obtain ⟨hmc_nf, hmc_inl, hmc_inr⟩ := confiMinCheck_spec hands opener c
  cases hmc : confiMinCheck hands opener c with
  | error e =>
    rw [err_bind]
    exact err_triple (nofuel_error hmc_nf hmc)
  | ok r =>
    simp only [ok_bind]
    cases r with
    | inl st0 =>
      dsimp only
      exact done_triple (hmc_inl st0 hmc)
    | inr cM =>
      dsimp only
      obtain ⟨hstepsM, hidxM⟩ := hmc_inr cM hmc
      cases hh : handAt hands cM.st.next_to_bid with
      | error e =>
        rw [err_bind]
        exact err_triple (nofuel_error (handAt_nofuel _ _) hh)
      | ok hand =>
        simp only [ok_bind]
        cases hls : (if cM.st.next_to_bid == opener then
            longSuitGo hand SUITS.enum else .ok none) with
        | error e =>
          rw [err_bind]
          refine err_triple (nofuel_error ?_ hls)
          split
          · exact longSuitGo_nofuel hand _
          · simp
        | ok ls =>
          simp only [ok_bind]
          cases ls with
          | some suit =>
            dsimp only
            obtain ⟨h6nf, h6ok⟩ := bid6S_spec cM.st suit
            cases h6 : bid6S cM.st suit with
            | error e =>
              rw [err_bind]
              exact err_triple (nofuel_error h6nf h6)
            | ok st1 =>
              simp only [ok_bind]
              obtain ⟨hs1, hc1⟩ := h6ok st1 h6
              exact done_triple ⟨hstepsM.trans hs1, hc1⟩
          | none =>
            dsimp only
            cases hp4 : getFlags cM.showed4 (2 - (cM.st.next_to_bid : Int)) with
            | error e =>
              rw [err_bind]
              exact err_triple (nofuel_error (getFlags_nofuel _ _) hp4)
            | ok p4 =>
              simp only [ok_bind]
              cases hf4 : fitScanGo hand 4 p4.enum with
              | error e =>
                rw [err_bind]
                exact err_triple (nofuel_error (fitScanGo_nofuel _ _ _) hf4)
              | ok f4 =>
                simp only [ok_bind]
                cases f4 with
                | some i =>
                  dsimp only
                  obtain ⟨h6nf, h6ok⟩ := bid6I_spec cM.st i
                  cases h6 : bid6I cM.st i with
                  | error e =>
                    rw [err_bind]
                    exact err_triple (nofuel_error h6nf h6)
                  | ok st1 =>
                    simp only [ok_bind]
                    obtain ⟨hs1, hc1⟩ := h6ok st1 h6
                    exact done_triple ⟨hstepsM.trans hs1, hc1⟩
                | none =>
                  dsimp only
                  cases hp5 : getFlags cM.showed5 (2 - (cM.st.next_to_bid : Int)) with
                  | error e =>
                    rw [err_bind]
                    exact err_triple (nofuel_error (getFlags_nofuel _ _) hp5)
                  | ok p5 =>
                    simp only [ok_bind]
                    cases hf5 : fitScanGo hand 3 p5.enum with
                    | error e =>
                      rw [err_bind]
                      exact err_triple (nofuel_error (fitScanGo_nofuel _ _ _) hf5)
                    | ok f5 =>
                      simp only [ok_bind]
                      cases f5 with
                      | some i =>
                        dsimp only
                        obtain ⟨h6nf, h6ok⟩ := bid6I_spec cM.st i
                        cases h6 : bid6I cM.st i with
                        | error e =>
                          rw [err_bind]
                          exact err_triple (nofuel_error h6nf h6)
                        | ok st1 =>
                          simp only [ok_bind]
                          obtain ⟨hs1, hc1⟩ := h6ok st1 h6
                          exact done_triple ⟨hstepsM.trans hs1, hc1⟩
                      | none =>
                        dsimp only
                        cases hp3 : getFlags cM.showed3 (2 - (cM.st.next_to_bid : Int)) with
                        | error e =>
                          rw [err_bind]
                          exact err_triple (nofuel_error (getFlags_nofuel _ _) hp3)
                        | ok p3 =>
                          simp only [ok_bind]
                          cases hf3 : fitScanGo hand 5 p3.enum with
                          | error e =>
                            rw [err_bind]
                            exact err_triple (nofuel_error (fitScanGo_nofuel _ _ _) hf3)
                          | ok f3 =>
                            simp only [ok_bind]
                            cases f3 with
                            | some i =>
                              dsimp only
                              obtain ⟨h6nf, h6ok⟩ := bid6I_spec cM.st i
                              cases h6 : bid6I cM.st i with
                              | error e =>
                                rw [err_bind]
                                exact err_triple (nofuel_error h6nf h6)
                              | ok st1 =>
                                simp only [ok_bind]
                                obtain ⟨hs1, hc1⟩ := h6ok st1 h6
                                exact done_triple ⟨hstepsM.trans hs1, hc1⟩
                            | none =>
                              dsimp only
                              cases hhb : highest_bid cM.st with
                              | none =>
                                dsimp only
                                exact err_triple (by simp)
                              | some cb =>
                                dsimp only
                                obtain ⟨hi4nf, hi4⟩ := intro4Go_spec hand 4 cb cM
                                cases h4 : intro4Go hand cM cb 4 with
                                | error e =>
                                  rw [err_bind]
                                  exact err_triple (nofuel_error hi4nf h4)
                                | ok c1 =>
                                  simp only [ok_bind]
                                  have stage1 := introStage hhb hstepsM hidxM (hi4 c1 h4)
                                  split
                                  · rename_i hne4
                                    exact cont_triple (stage1.1 hne4)
                                  · rename_i heq4
                                    rw [Bool.not_eq_true] at heq4
                                    have hc1eq : c1.st = cM.st := stage1.2 heq4
                                    rw [hc1eq, hhb]
                                    dsimp only
                                    have hhb1 : highest_bid c1.st = some cb := by
                                      rw [hc1eq]
                                      exact hhb
                                    have hsteps1 : Steps c.st c1.st := by
                                      rw [hc1eq]
                                      exact hstepsM
                                    have hidx1 : hIdx c.st ≤ hIdx c1.st := by
                                      rw [hc1eq]
                                      exact hidxM
                                    obtain ⟨hi5nf, hi5⟩ := intro5Go_spec hand 4 cb c1
                                    cases h5 : intro5Go hand c1 cb 4 with
                                    | error e =>
                                      rw [err_bind]
                                      exact err_triple (nofuel_error hi5nf h5)
                                    | ok c2 =>
                                      simp only [ok_bind]
                                      have stage2 := introStage hhb1 hsteps1 hidx1 (hi5 c2 h5)
                                      split
                                      · rename_i hne5
                                        exact cont_triple (stage2.1 hne5)
                                      · rename_i heq5
                                        rw [Bool.not_eq_true] at heq5
                                        have hc2eq : c2.st = c1.st := stage2.2 heq5
                                        cases hlvl : bidLevel cb with
                                        | error e =>
                                          rw [err_bind]
                                          exact err_triple (nofuel_error (bidLevel_nofuel cb) hlvl)
                                        | ok curLvl =>
                                          simp only [ok_bind]
                                          rw [hc2eq, hc1eq, hhb]
                                          dsimp only
                                          have hhb2 : highest_bid c2.st = some cb := by
                                            rw [hc2eq]
                                            exact hhb1
                                          have hsteps2 : Steps c.st c2.st := by
                                            rw [hc2eq]
                                            exact hsteps1
                                          have hidx2 : hIdx c.st ≤ hIdx c2.st := by
                                            rw [hc2eq]
                                            exact hidx1
                                          obtain ⟨hi3nf, hi3⟩ := intro3Go_spec hand curLvl 4 cb c2
                                          cases h3 : intro3Go hand curLvl c2 cb 4 with
                                          | error e =>
                                            rw [err_bind]
                                            exact err_triple (nofuel_error hi3nf h3)
                                          | ok c3 =>
                                            simp only [ok_bind]
                                            have stage3 := introStage hhb2 hsteps2 hidx2 (hi3 c3 h3)
                                            split
                                            · rename_i hne3
                                              exact cont_triple (stage3.1 hne3)
                                            · rename_i heq3
                                              rw [Bool.not_eq_true] at heq3
                                              have hc3eq : c3.st = c2.st := stage3.2 heq3
                                              have hhb3 : highest_bid c3.st = some cb := by
                                                rw [hc3eq]
                                                exact hhb2
                                              have hsteps3 : Steps c.st c3.st := by
                                                rw [hc3eq]
                                                exact hsteps2
                                              have hidx3 : hIdx c.st ≤ hIdx c3.st := by
                                                rw [hc3eq]
                                                exact hidx2
                                              split
                                              · -- current bid is NT: pass out
                                                have hop3 := opened_of_highest hhb3
                                                obtain ⟨st4, h4p⟩ :=
                                                  all_pass_ok c3.st (Or.inl hop3)
                                                cases hap : all_pass c3.st with
                                                | error e =>
                                                  rw [h4p] at hap
                                                  cases hap
                                                | ok stx =>
                                                  rw [h4p] at hap
                                                  cases hap
                                                  simp only [ok_bind]
                                                  exact done_triple
                                                    ⟨hsteps3.trans (all_passN_steps h4p),
                                                     all_passN_completed h4p⟩
                                              · -- bid the cheapest NT and continue
                                                rename_i hNN
                                                cases hnt : toNT 6 cb with
                                                | error e =>
                                                  rw [err_bind]
                                                  exact err_triple
                                                    (nofuel_error (toNT6_nofuel _) hnt)
                                                | ok nt =>
                                                  simp only [ok_bind]
                                                  have hgt := toNT_gt 6 cb nt hnt
                                                    (by simpa using hNN)
                                                  have hntP := mem_BIDS_ne_P hgt.2
                                                  cases hadd1 : add_bid c3.st nt with
                                                  | error e =>
                                                    rw [err_bind]
                                                    exact err_triple
                                                      (nofuel_error (add_bid_nofuel _ _) hadd1)
                                                  | ok st1 =>
                                                    simp only [ok_bind]
                                                    cases hadd2 : add_bid st1 "P" with
                                                    | error e =>
                                                      rw [err_bind]
                                                      exact err_triple
                                                        (nofuel_error (add_bid_nofuel _ _) hadd2)
                                                    | ok st2 =>
                                                      simp only [ok_bind]
                                                      have hbids2 : st2.bids =
                                                          c3.st.bids ++ [nt, "P"] := by
                                                        rw [add_bid_bids hadd2,
                                                          add_bid_bids hadd1, List.append_assoc]
                                                        rfl
                                                      refine cont_triple ⟨?_, ?_⟩
                                                      · exact hsteps3.trans
                                                          ((Steps.single hadd1).trans
                                                            (Steps.single hadd2))
                                                      · show hIdx c.st < hIdx st2
                                                        rw [hIdx_append_pair hntP hbids2]
                                                        have := hIdx_of_highest hhb3
                                                        omega



theorem confiLoopN_spec (hands : List (Option String)) (opener : Nat) :
    ∀ (n : Nat) (c : ConfiSt), 32 - hIdx c.st < n →
      confiLoopN hands opener n c ≠ .error .fuel ∧
      (∀ st, confiLoopN hands opener n c = .ok st →
         Steps c.st st ∧ completed st = true)
  | 0, c, hn => absurd hn (by omega)
  | n + 1, c, hn => by
    unfold confiLoopN
    obtain ⟨hb_nf, hb_inl, hb_inr⟩ := confiBody_spec hands opener c
    cases hb : confiBody hands opener c with
    | error e =>
      have he := nofuel_error hb_nf hb
      exact ⟨by simp [he], fun st h => Except.noConfusion h⟩
    | ok r =>
      cases r with
      | inl st0 =>
        dsimp only
        obtain ⟨hs, hc⟩ := hb_inl st0 hb
        exact ⟨by simp, fun st h => by cases h; exact ⟨hs, hc⟩⟩
      | inr c' =>
        dsimp only
        obtain ⟨hs, hlt⟩ := hb_inr c' hb
        have hle := hIdx_le_31 c'.st
        have ih := confiLoopN_spec hands opener n c' (by omega)
        refine ⟨ih.1, fun st h => ?_⟩
        obtain ⟨hs2, hc2⟩ := ih.2 st h
        exact ⟨hs.trans hs2, hc2⟩

theorem confiOpening_spec (hands : List (Option String)) (state : Auctioneer) :
    confiOpening hands state ≠ .error .fuel ∧
    ∀ st oc, confiOpening hands state = .ok (st, oc) → Steps state st := by
  unfold confiOpening
  cases hh : handAt hands state.next_to_bid with
  | error e =>
    rw [err_bind]
    have he := nofuel_error (handAt_nofuel _ _) hh
    exact ⟨by simp [he], fun st oc h => Except.noConfusion h⟩
  | ok hand =>
    simp only [ok_bind]
    cases hask : pyNeg2 state.bids with
    | none =>
      dsimp only
      exact ⟨by simp, fun st oc h => Except.noConfusion h⟩
    | some ask =>
      dsimp only
      cases hfi : BIDS.findIdx? (· == ask) with
      | none =>
        dsimp only
        exact ⟨by simp, fun st oc h => Except.noConfusion h⟩
      | some i =>
        dsimp only
        cases hget : BIDS[i + (ControlEvaluator hand - 6 + 1)]? with
        | none =>
          dsimp only
          exact ⟨by simp, fun st oc h => Except.noConfusion h⟩
        | some stepBid =>
          dsimp only
          cases hadd1 : add_bid state stepBid with
          | error e =>
            rw [err_bind]
            have he := nofuel_error (add_bid_nofuel _ _) hadd1
            exact ⟨by simp [he], fun st oc h => Except.noConfusion h⟩
          | ok st1 =>
            simp only [ok_bind]
            cases hadd2 : add_bid st1 "P" with
            | error e =>
              rw [err_bind]
              have he := nofuel_error (add_bid_nofuel _ _) hadd2
              exact ⟨by simp [he], fun st oc h => Except.noConfusion h⟩
            | ok st2 =>
              simp only [ok_bind]
              refine ⟨by simp, fun st oc h => ?_⟩
              have hpr := Except.ok.inj h
              injection hpr with h1 h2
              subst h1
              exact (Steps.single hadd1).trans (Steps.single hadd2)

theorem confiSuff_spec (hands : List (Option String)) (st : Auctioneer) (oc : Nat) :
    confiSuff hands st oc ≠ .error .fuel ∧
    ∀ final, confiSuff hands st oc = .ok (some final) →
      Steps st final ∧ completed final = true := by
  unfold confiSuff
  cases hh : handAt hands st.next_to_bid with
  | error e =>
    rw [err_bind]
    have he := nofuel_error (handAt_nofuel _ _) hh
    exact ⟨by simp [he], fun final h => Except.noConfusion h⟩
  | ok hand =>
    simp only [ok_bind]
    split
    · cases hask : pyNeg2 st.bids with
      | none =>
        dsimp only
        exact ⟨by simp, fun final h => Except.noConfusion h⟩
      | some ask =>
        dsimp only
        cases hfi : BIDS.findIdx? (· == ask) with
        | none =>
          dsimp only
          exact ⟨by simp, fun final h => Except.noConfusion h⟩
        | some i =>
          dsimp only
          cases hnt : (BIDS.drop i).find? (fun b => endsWith1 b 'N') with
          | none =>
            dsimp only
            exact ⟨by simp, fun final h => Except.noConfusion h⟩
          | some nt =>
            dsimp only
            have hmem : nt ∈ BIDS :=
              List.mem_of_mem_drop (List.mem_of_find?_eq_some hnt)
            have hne := mem_BIDS_ne_P hmem
            cases hadd : add_bid st nt with
            | error e =>
              rw [err_bind]
              have he := nofuel_error (add_bid_nofuel _ _) hadd
              exact ⟨by simp [he], fun final h => Except.noConfusion h⟩
            | ok st1 =>
              simp only [ok_bind]
              have hop1 : has_opened st1 = true := by
                rw [has_opened_ok_add hadd]
                simp [hne]
              obtain ⟨st2, h2⟩ := all_pass_ok st1 (Or.inl hop1)
              cases hap : all_pass st1 with
              | error e =>
                rw [h2] at hap
                cases hap
              | ok stx =>
                rw [h2] at hap
                cases hap
                simp only [ok_bind]
                refine ⟨by simp, fun final h => ?_⟩
                have := Except.ok.inj h
                injection this with h1
                subst h1
                exact ⟨(Steps.single hadd).trans (all_passN_steps h2),
                       all_passN_completed h2⟩
    · exact ⟨by simp, fun final h => Option.noConfusion (Except.ok.inj h)⟩

theorem CONFIbid_spec (hands : List (Option String)) (state : Auctioneer) :
    CONFIbid hands state ≠ .error .fuel ∧
    ∀ st', CONFIbid hands state = .ok st' →
      Steps state st' ∧ completed st' = true := by
  unfold CONFIbid
  obtain ⟨hop_nf, hop_steps⟩ := confiOpening_spec hands state
  cases hop : confiOpening hands state with
  | error e =>
    rw [err_bind]
    have he := nofuel_error hop_nf hop
    exact ⟨by simp [he], fun st' h => Except.noConfusion h⟩
  | ok pr =>
    obtain ⟨st0, oc⟩ := pr
    simp only [ok_bind]
    obtain ⟨hsf_nf, hsf_some⟩ := confiSuff_spec hands st0 oc
    cases hsf : confiSuff hands st0 oc with
    | error e =>
      rw [err_bind]
      have he := nofuel_error hsf_nf hsf
      exact ⟨by simp [he], fun st' h => Except.noConfusion h⟩
    | ok res =>
      simp only [ok_bind]
      cases res with
      | some final =>
        dsimp only
        obtain ⟨hs, hc⟩ := hsf_some final hsf
        refine ⟨by simp, fun st' h => ?_⟩
        cases h
        exact ⟨(hop_steps st0 oc hop).trans hs, hc⟩
      | none =>
        dsimp only
        have hloop := confiLoopN_spec hands state.next_to_bid 40
          { st := st0, denied4 := initFlags, showed4 := initFlags,
            showed5 := initFlags, showed3 := initFlags, ofr := true }
          (by omega)
        refine ⟨hloop.1, fun st' h => ?_⟩
        obtain ⟨hs, hc⟩ := hloop.2 st' h
        exact ⟨(hop_steps st0 oc hop).trans hs, hc⟩



mutual

theorem check_one_nofuel : ∀ (c : Crit) (hand : Option String) (state : Auctioneer),
    check_one c hand state ≠ .error .fuel
  | .mk tag text amin amax children, hand, state => by
    unfold check_one
    split
    · simp
    · split
      · simp
      · split
        · simp
        · split
          · cases hand with
            | none => simp
            | some hstr =>
              dsimp only
              cases hmin : attrInt amin 0 with
              | none =>
                dsimp only
                simp
              | some lo =>
                dsimp only
                split
                · simp
                · cases hmax : attrInt amax 40 with
                  | none =>
                    dsimp only
                    simp
                  | some hi =>
                    dsimp only
                    split <;> simp
          · split
            · exact checkAny_nofuel children hand state
            · simp

theorem checkAll_nofuel : ∀ (cs : List Crit) (hand : Option String) (state : Auctioneer),
    checkAll cs hand state ≠ .error .fuel
  | [], _, _ => by
    unfold checkAll
    simp
  | c :: rest, hand, state => by
    unfold checkAll
    cases h1 : check_one c hand state with
    | error e =>
      dsimp only
      have he := nofuel_error (check_one_nofuel c hand state) h1
      simp [he]
    | ok b =>
      dsimp only
      split
      · exact checkAll_nofuel rest hand state
      · simp

theorem checkAny_nofuel : ∀ (cs : List Crit) (hand : Option String) (state : Auctioneer),
    checkAny cs hand state ≠ .error .fuel
  | [], _, _ => by
    unfold checkAny
    simp
  | c :: rest, hand, state => by
    unfold checkAny
    cases h1 : check_one c hand state with
    | error e =>
      dsimp only
      have he := nofuel_error (check_one_nofuel c hand state) h1
      simp [he]
    | ok b =>
      dsimp only
      split
      · simp
      · exact checkAny_nofuel rest hand state

end

theorem HandOffs_do_spec (s : String) (hands : List (Option String)) (st : Auctioneer) :
    HandOffs_do s hands st ≠ .error .fuel ∧
    ∀ st', HandOffs_do s hands st = .ok st' → Steps st st' ∧ completed st' = true := by
  unfold HandOffs_do
  split
  · exact ⟨(CONFIbid_spec hands st).1, fun st' h => (CONFIbid_spec hands st).2 st' h⟩
  · exact ⟨by simp, fun st' h => Except.noConfusion h⟩



theorem sizeBN_pos (n : BNode) : 1 ≤ sizeBN n := by
  cases n with
  | mk v c r h => cases r <;> simp [sizeBN]

theorem walkListN_steps (hands : List (Option String)) :
    ∀ (n : Nat) (l : List BNode) (st st' : Auctioneer),
      walkListN hands n l st = .ok st' → Steps st st'
  | n, [], st, st', h => by
    have heq : walkListN hands n [] st = .ok st := by cases n <;> rfl
    rw [heq] at h
    cases h
    exact .refl _
  | 0, node :: rest, st, st', h => by
    have heq : walkListN hands 0 (node :: rest) st = .error .fuel := rfl
    rw [heq] at h
    cases h
  | n + 1, .mk value criteria responses handoff :: rest, st, st', h => by
    unfold walkListN at h
    cases criteria with
    | none =>
      dsimp only at h
      exact Except.noConfusion h
    | some cl =>
      cases cl with
      | nil =>
        dsimp only at h
        exact Except.noConfusion h
      | cons c0 cs0 =>
        dsimp only at h
        cases hh : hands[st.next_to_bid]? with
        | none =>
          rw [hh] at h
          dsimp only at h
          exact Except.noConfusion h
        | some oh =>
          rw [hh] at h
          dsimp only at h
          cases hca : checkAll (c0 :: cs0) oh st with
          | error e =>
            rw [hca] at h
            dsimp only at h
            exact Except.noConfusion h
          | ok b =>
            rw [hca] at h
            cases b with
            | false =>
              dsimp only at h
              exact walkListN_steps hands n rest st st' h
            | true =>
              dsimp only at h
              cases hadd1 : add_bid st value with
              | error e =>
                rw [hadd1, err_bind] at h
                exact Except.noConfusion h
              | ok st1 =>
                rw [hadd1] at h
                simp only [ok_bind] at h
                cases hadd2 : add_bid st1 "P" with
                | error e =>
                  rw [hadd2, err_bind] at h
                  exact Except.noConfusion h
                | ok st2 =>
                  rw [hadd2] at h
                  simp only [ok_bind] at h
                  have hsteps2 : Steps st st2 :=
                    (Steps.single hadd1).trans (Steps.single hadd2)
                  cases handoff with
                  | some hs =>
                    dsimp only at h
                    cases hdo : HandOffs_do hs hands st2 with
                    | error e =>
                      rw [hdo, err_bind] at h
                      exact Except.noConfusion h
                    | ok st3 =>
                      rw [hdo] at h
                      simp only [ok_bind] at h
                      have hsteps3 : Steps st st3 :=
                        hsteps2.trans (((HandOffs_do_spec hs hands st2).2 st3 hdo).1)
                      cases responses with
                      | none =>
                        dsimp only at h
                        exact hsteps3.trans (all_passN_steps h)
                      | some rl =>
                        cases rl with
                        | nil =>
                          dsimp only at h
                          exact hsteps3.trans (all_passN_steps h)
                        | cons n2 r2 =>
                          dsimp only at h
                          exact hsteps3.trans (walkListN_steps hands n (n2 :: r2) st3 st' h)
                  | none =>
                    dsimp only at h
                    simp only [ok_bind] at h
                    cases responses with
                    | none =>
                      dsimp only at h
                      exact hsteps2.trans (all_passN_steps h)
                    | some rl =>
                      cases rl with
                      | nil =>
                        dsimp only at h
                        exact hsteps2.trans (all_passN_steps h)
                      | cons n2 r2 =>
                        dsimp only at h
                        exact hsteps2.trans (walkListN_steps hands n (n2 :: r2) st2 st' h)



theorem walkListN_nofuel (hands : List (Option String)) :
    ∀ (n : Nat) (l : List BNode) (st : Auctioneer), Inv2 st → sizeBNL l ≤ n →
      walkListN hands n l st ≠ .error .fuel
  | n, [], st, h2, hsz => by
    have heq : walkListN hands n [] st = .ok st := by cases n <;> rfl
    rw [heq]
    simp
  | 0, node :: rest, st, h2, hsz => by
    exfalso
    have h1 := sizeBN_pos node
    unfold sizeBNL at hsz
    omega
  | n + 1, .mk value criteria responses handoff :: rest, st, h2, hsz => by
    have hszr : sizeBNL rest ≤ n := by
      have h1 := sizeBN_pos (.mk value criteria responses handoff)
      unfold sizeBNL at hsz
      omega
    unfold walkListN
    cases criteria with
    | none =>
      dsimp only
      simp
    | some cl =>
      cases cl with
      | nil =>
        dsimp only
        simp
      | cons c0 cs0 =>
        dsimp only
        cases hh : hands[st.next_to_bid]? with
        | none =>
          dsimp only
          simp
        | some oh =>
          dsimp only
          cases hca : checkAll (c0 :: cs0) oh st with
          | error e =>
            dsimp only
            have he := nofuel_error (checkAll_nofuel _ _ _) hca
            simp [he]
          | ok b =>
            cases b with
            | false =>
              dsimp only
              exact walkListN_nofuel hands n rest st h2 hszr
            | true =>
              dsimp only
              cases hadd1 : add_bid st value with
              | error e =>
                rw [err_bind]
                have he := nofuel_error (add_bid_nofuel _ _) hadd1
                simp [he]
              | ok st1 =>
                simp only [ok_bind]
                cases hadd2 : add_bid st1 "P" with
                | error e =>
                  rw [err_bind]
                  have he := nofuel_error (add_bid_nofuel _ _) hadd2
                  simp [he]
                | ok st2 =>
                  simp only [ok_bind]
                  have hsteps2 : Steps st st2 :=
                    (Steps.single hadd1).trans (Steps.single hadd2)
                  cases handoff with
                  | some hs =>
                    dsimp only
                    obtain ⟨hdo_nf, hdo_ok⟩ := HandOffs_do_spec hs hands st2
                    cases hdo : HandOffs_do hs hands st2 with
                    | error e =>
                      rw [err_bind]
                      have he := nofuel_error hdo_nf hdo
                      simp [he]
                    | ok st3 =>
                      simp only [ok_bind]
                      have hsteps3 : Steps st st3 := hsteps2.trans ((hdo_ok st3 hdo).1)
                      have h23 : Inv2 st3 := Inv2_steps hsteps3 h2
                      cases responses with
                      | none =>
                        dsimp only
                        obtain ⟨st4, h4⟩ := all_pass_ok st3 h23
                        rw [h4]
                        simp
                      | some rl =>
                        cases rl with
                        | nil =>
                          dsimp only
                          obtain ⟨st4, h4⟩ := all_pass_ok st3 h23
                          rw [h4]
                          simp
                        | cons n2 r2 =>
                          dsimp only
                          have hsz2 : sizeBNL (n2 :: r2) ≤ n := by
                            unfold sizeBNL at hsz
                            unfold sizeBN at hsz
                            omega
                          exact walkListN_nofuel hands n (n2 :: r2) st3 h23 hsz2
                  | none =>
                    dsimp only
                    simp only [ok_bind]
                    have h22 : Inv2 st2 := Inv2_steps hsteps2 h2
                    cases responses with
                    | none =>
                      dsimp only
                      obtain ⟨st4, h4⟩ := all_pass_ok st2 h22
                      rw [h4]
                      simp
                    | some rl =>
                      cases rl with
                      | nil =>
                        dsimp only
                        obtain ⟨st4, h4⟩ := all_pass_ok st2 h22
                        rw [h4]
                        simp
                      | cons n2 r2 =>
                        dsimp only
                        have hsz2 : sizeBNL (n2 :: r2) ≤ n := by
                          unfold sizeBNL at hsz
                          unfold sizeBN at hsz
                          omega
                        exact walkListN_nofuel hands n (n2 :: r2) st2 h22 hsz2


/-! ## Claim C9: termination of the CONFI convention -/

/-- C9: for every pair of hands and every auction state at hand-off
invocation, the CONFI procedure terminates: it never exhausts its loop
fuel (each unresolved loop iteration strictly raises the index of the
highest bid, which is bounded by the finite bid space), and every
structural failure surfaces as a definite error value instead of
looping. -/
theorem C9_confi_terminates (hands : List (Option String)) (state : Auctioneer) :
    CONFIbid hands state ≠ .error .fuel :=
  (CONFIbid_spec hands state).1

/-- Witness for C9 at the first unit-test deal. -/
theorem C9_confi_terminates_witness :
    CONFIbid [some "AQ3 AK3 J2 AQ652", none, some "K9742 J2 QJ65 K3", none]
      { bids := ["2N", "P", "3N", "P"], dealer := "N", next_to_bid := 0 } ≠
      .error .fuel :=
  C9_confi_terminates _ _

/-! ## Claim C1: the engine entry point -/

/-- C1 counterexample: with a tree whose only root node demands 40 HCP,
no child's guard matches; `bidder.bid` then hits the `for/else` branch,
which just breaks — it does NOT force a pass-out — and returns the
empty auction, which neither ends in three trailing passes nor is the
four-pass auction. -/
theorem C1_no_match_counterexample :
    bidderBid [BNode.mk "1C" (some [Crit.mk "hcp" none (some "40") none []]) none none]
        "32 32 5432 5432" "32 32 5432 5432" = .ok [] ∧
    ¬(((([] : List String).any (· != "P")) = true ∧ tp [] = 3) ∨
      ([] : List String) = ["P", "P", "P", "P"]) := by
  constructor
  · rfl
  · decide

/-- C1 amended: for every decision tree and pair of hands, `bid`
terminates (the walk never exhausts its fuel bound, i.e. the code
never diverges); whenever the returned auction is completed — in
particular whenever the walk ended by subtree exhaustion or a finished
hand-off — it ends in exactly three trailing passes after a real bid,
or is exactly the four-pass auction; but when no child's guard matches
at a node with children, the walk stops and returns the bids
accumulated so far without forcing a pass-out. -/
theorem C1_bid_terminates_and_good (tree : List BNode) (north south : String) :
    bidderBid tree north south ≠ .error .fuel ∧
    ∀ bids, bidderBid tree north south = .ok bids →
      completed { bids := bids, dealer := "N", next_to_bid := 0 } = true →
      ((bids.any (· != "P")) = true ∧ tp bids = 3) ∨ bids = ["P", "P", "P", "P"] := by
  unfold bidderBid
  dsimp only
  have h20 : Inv2 (initAuctioneer "N") := Or.inr (by simp [initAuctioneer])
  cases hw : walkListN [some north, none, some south, none] (sizeBNL tree) tree
      (initAuctioneer "N") with
  | error e =>
    dsimp only
    have he := nofuel_error
      (walkListN_nofuel _ (sizeBNL tree) tree (initAuctioneer "N") h20 (le_refl _)) hw
    exact ⟨by simp [he], fun bids h => Except.noConfusion h⟩
  | ok stf =>
    dsimp only
    refine ⟨by simp, fun bids h hcomp => ?_⟩
    cases Except.ok.inj h
    have hsteps := walkListN_steps _ (sizeBNL tree) tree (initAuctioneer "N") stf hw
    have hgood : GoodInv stf := GoodInv_steps hsteps (fun hc => by
      rw [show completed (initAuctioneer "N") = false from rfl] at hc
      cases hc)
    have hcomp' : completed stf = true := by
      rw [completed_congr (a := stf)
        (b := { bids := stf.bids, dealer := "N", next_to_bid := 0 }) rfl]
      exact hcomp
    exact hgood hcomp'

/-- Witness for C1 on a one-node tree that opens `1C`: the walk commits
`1C P`, exhausts the subtree, and passes out with exactly three
trailing passes. -/
theorem C1_bid_terminates_and_good_witness :
    ((["1C", "P", "P", "P"].any (· != "P")) = true ∧ tp ["1C", "P", "P", "P"] = 3) ∨
      ["1C", "P", "P", "P"] = ["P", "P", "P", "P"] :=
  (C1_bid_terminates_and_good
      [BNode.mk "1C" (some [Crit.mk "opening" none none none []]) none none]
      "32 32 5432 5432" "32 32 5432 5432").2
    ["1C", "P", "P", "P"] (by rfl) (by decide)

/-! ## Claim C7: append-only history and bid monotonicity -/

/-- C7 counterexample: the auction state performs no legality check, so
a decision tree whose response node carries a lower bid makes the run
append `1C` after `2C` — the history is not monotone in the bid order. -/
theorem C7_monotonicity_counterexample :
    bidderBid
        [BNode.mk "2C" (some [Crit.mk "opening" none none none []])
          (some [BNode.mk "1C" (some [Crit.mk "hcp" none none none []]) none none]) none]
        "32 32 5432 5432" "32 32 5432 5432" =
      .ok ["2C", "P", "1C", "P", "P", "P"] ∧
    bidIdx "1C" < bidIdx "2C" := by
  constructor
  · rfl
  · decide

/-- C7 amended: throughout every bidding run the bid history is
append-only — `add_bid` appends exactly one bid, any `add_bid` chain
only extends the history, and both the CONFI hand-off and the whole
tree walk only extend it; but monotonic non-decrease of real bids is
not guaranteed (the counterexample above shows a run that appends a
real bid below the previous one). -/
theorem C7_append_only :
    (∀ (a a' : Auctioneer) (bid : String), add_bid a bid = .ok a' →
        a'.bids = a.bids ++ [bid]) ∧
    (∀ (a a' : Auctioneer), Steps a a' → ∃ l, a'.bids = a.bids ++ l) ∧
    (∀ (hands : List (Option String)) (st st' : Auctioneer),
        CONFIbid hands st = .ok st' → ∃ l, st'.bids = st.bids ++ l) ∧
    (∀ (hands : List (Option String)) (n : Nat) (l : List BNode)
        (st st' : Auctioneer),
        walkListN hands n l st = .ok st' → ∃ t, st'.bids = st.bids ++ t) := by
  refine ⟨fun a a' bid h => add_bid_bids h,
          fun a a' h => h.bids_extend, ?_, ?_⟩
  · intro hands st st' h
    exact (((CONFIbid_spec hands st).2 st' h).1).bids_extend
  · intro hands n l st st' h
    exact (walkListN_steps hands n l st st' h).bids_extend

/-- Witness for C7's append-only statement at a concrete `add_bid`. -/
theorem C7_append_only_witness :
    ({ bids := ["1C"], dealer := "N", next_to_bid := 1 } : Auctioneer).bids =
      ({ bids := [], dealer := "N", next_to_bid := 0 } : Auctioneer).bids ++ ["1C"] :=
  C7_append_only.1 { bids := [], dealer := "N", next_to_bid := 0 } _ "1C" (by rfl)

end BBEngine
